import Mathlib

/-!
Verification of the Extractify crawler/extractor pipeline.

This file gives a shallow embedding, in Lean 4, of the parts of the
repository that the specification's testable properties talk about:

* `crawler/scraper.py` — `_same_site`, `_fetch`, `_robots_allowed`,
  `crawl_domain` (the bounded same-host BFS crawl);
* `crawler/crawler.py` + `crawler/utils.py` — the `crawl` variant whose
  robots.txt ruleset is fetched once, before the loop;
* `crawler/storage.py` — `JSONLStorage.read_all`;
* `extractor/nlp_pipeline.py` — `_window`, `_extract_candidates_from_page`,
  `_page_title_boost`, `_score_candidate`, `extract_entities` (streaming
  dedup/emit loop);
* `extractor/ai_enhance.py` — `infer_label_zsl`, `cluster_by_name`,
  `enhance_entities`.

External collaborators (the HTTP library, BeautifulSoup, `urllib.parse`
resolution of relative links, `json.loads`, the Python `re` engine, spaCy,
SBERT/zero-shot models, sklearn clustering) are modelled as oracle fields of
explicit `...World` structures: the embedded code consumes their answers
exactly where the Python code consumes the library's answers.  Everything the
repository itself computes — guards, loops, windows, slicing, scoring
arithmetic, dedup maps, sorting, robots bookkeeping — is translated
concretely.  Python strings are modelled character-exactly: the helpers below
reimplement `strip`/`lower`/slicing/`in` on `List Char` so that they both
match Python semantics (character counts, not bytes) and compute inside the
kernel.  Python floats are modelled as exact rationals; `min`/`max` are the
two-argument Python builtins.

Machine-checked state is instrumented with ghost fields (a robots.txt fetch
log, the depth at which each page record was dequeued, the list of candidates
that reached the dedup map, the intermediate states of the streaming loop);
the instrumentation only records what the Python code already does, it never
alters control flow.
-/

set_option maxRecDepth 20000

/-! ## Python-style string primitives (character-based, kernel-computable) -/

/-- Python `min` on two floats (modelled as rationals). -/
def pyMin (a b : ℚ) : ℚ := if a ≤ b then a else b

/-- Python `max` on two floats (modelled as rationals). -/
def pyMax (a b : ℚ) : ℚ := if a ≤ b then b else a

/-- `max(0.0, min(1.0, x))` — the clamp used by `_score_candidate`. -/
def clamp01 (q : ℚ) : ℚ := pyMax 0 (pyMin 1 q)

/-- Strip leading/trailing whitespace from a character list (Python `str.strip`). -/
def pyStripL (cs : List Char) : List Char :=
  ((cs.dropWhile Char.isWhitespace).reverse.dropWhile Char.isWhitespace).reverse

/-- Python `str.strip()`. -/
def pyStrip (s : String) : String := ⟨pyStripL s.data⟩

/-- Python `str.lower()` (ASCII-adequate, per-character lowering). -/
def pyLower (s : String) : String := ⟨s.data.map Char.toLower⟩

/-- Python slicing `s[:n]` (first `n` characters). -/
def pyTakeN (n : Nat) (s : String) : String := ⟨s.data.take n⟩

/-- Python `len(s)` (number of characters). -/
def pyLen (s : String) : Nat := s.data.length

/-- Python slicing `s[a:b]` over character indices. -/
def pySlice (s : String) (a b : Nat) : String := ⟨(s.data.drop a).take (b - a)⟩

/-- Does `needle` occur as a contiguous sublist of `hay`?  (Python `in`.) -/
def containsSubL (needle : List Char) : List Char → Bool
  | [] => needle.isEmpty
  | c :: rest => needle.isPrefixOf (c :: rest) || containsSubL needle rest

/-- Python `needle in hay` for strings. -/
def pyIn (needle hay : String) : Bool := containsSubL needle.data hay.data

/-- Python `x or d` for an optional string (`None` and `""` are falsy). -/
def pyOrS (o : Option String) (d : String) : String :=
  match o with
  | none => d
  | some s => if s = "" then d else s

/-- Python `domain.rstrip("/")`: drop every trailing `'/'`. -/
def rstripSlash (s : String) : String := ⟨(s.data.reverse.dropWhile (· = '/')).reverse⟩

/-- Number of whitespace-separated words of a string (Python `len(s.split())`). -/
def pyWordCount (s : String) : Nat :=
  ((s.split Char.isWhitespace).filter (fun w => w ≠ "")).length

/-! ## A model of `urllib.parse.urlparse(...).netloc` for http(s)-style URLs

`urlparse` takes what stands between the first `"://"` and the next
`/`, `?` or `#` as the network location.  (For inputs without a scheme
separator it yields an empty netloc, which the model mirrors.) -/

/-- The characters after the first occurrence of `"://"`, if any. -/
def afterScheme : List Char → Option (List Char)
  | [] => none
  | c :: rest =>
    if c = ':' ∧ rest.take 2 = ['/', '/'] then some (rest.drop 2) else afterScheme rest

/-- A character that terminates the netloc component. -/
def netlocStop (c : Char) : Bool := c = '/' || c = '?' || c = '#'

/-- Netloc of a character list. -/
def netlocChars (cs : List Char) : List Char :=
  match afterScheme cs with
  | none => []
  | some rest => rest.takeWhile (fun c => !netlocStop c)

/-- `urlparse(u).netloc` (model). -/
def netlocOf (u : String) : String := ⟨netlocChars u.data⟩

/-- The scheme in front of the first `"://"` (empty if there is none). -/
def schemeAux (acc : List Char) : List Char → List Char
  | [] => []
  | c :: rest =>
    if c = ':' ∧ rest.take 2 = ['/', '/'] then acc.reverse else schemeAux (c :: acc) rest

/-- `urlparse(u).scheme` (model, for robots.txt URL construction). -/
def schemeOf (u : String) : String := ⟨schemeAux [] u.data⟩

/-- `f"{scheme}://{netloc}/robots.txt"` as built by `_robots_allowed` and
`get_robots_parser`. -/
def robotsUrlOf (root : String) : String :=
  schemeOf root ++ "://" ++ netlocOf root ++ "/robots.txt"

/-- `crawler/scraper.py::_same_site`: equality of lower-cased netlocs. -/
def sameSite (u root : String) : Bool := pyLower (netlocOf u) = pyLower (netlocOf root)

/-! ### Netloc is unchanged by stripping trailing slashes -/

theorem netlocChars_cons_of_pos {c : Char} {rest : List Char}
    (h : c = ':' ∧ rest.take 2 = ['/', '/']) :
    netlocChars (c :: rest) = (rest.drop 2).takeWhile (fun c => !netlocStop c) := by
  simp only [netlocChars, afterScheme, if_pos h]

theorem netlocChars_cons_of_neg {c : Char} {rest : List Char}
    (h : ¬(c = ':' ∧ rest.take 2 = ['/', '/'])) :
    netlocChars (c :: rest) = netlocChars rest := by
  simp only [netlocChars, afterScheme, if_neg h]

theorem takeWhile_all_slash_eq_nil {l : List Char} (h : ∀ x ∈ l, x = '/') :
    l.takeWhile (fun c => !netlocStop c) = [] := by
  cases l with
  | nil => rfl
  | cons a t =>
    have ha : a = '/' := h a (List.mem_cons_self a t)
    subst ha
    simp [List.takeWhile_cons, netlocStop]

theorem afterScheme_replicate_slash (k : Nat) :
    afterScheme (List.replicate k '/') = none := by
  induction k with
  | zero => rfl
  | succ n ih =>
    simp only [List.replicate, afterScheme]
    rw [if_neg]
    · exact ih
    · rintro ⟨h, -⟩
      exact absurd h (by decide)

theorem takeWhile_append_replicate_slash (xs : List Char) (k : Nat) :
    (xs ++ List.replicate k '/').takeWhile (fun c => !netlocStop c) =
      xs.takeWhile (fun c => !netlocStop c) := by
  induction xs with
  | nil =>
    simp only [List.nil_append, List.takeWhile_nil]
    induction k with
    | zero => rfl
    | succ n ih =>
      simp only [List.replicate, List.takeWhile_cons]
      norm_num [netlocStop]
  | cons x xs ih =>
    simp only [List.cons_append, List.takeWhile_cons]
    cases h : (!netlocStop x) <;> simp [h, ih]

theorem netlocChars_append_replicate_slash (cs : List Char) (k : Nat) :
    netlocChars (cs ++ List.replicate k '/') = netlocChars cs := by
  induction cs with
  | nil =>
    simp only [List.nil_append, netlocChars, afterScheme_replicate_slash]
    cases k <;> rfl
  | cons c rest ih =>
    by_cases h1 : c = ':' ∧ rest.take 2 = ['/', '/']
    · -- the scheme separator is found inside `c :: rest` on both sides
      obtain ⟨rfl, htake⟩ := h1
      have hrest : ∃ rs, rest = '/' :: '/' :: rs := by
        cases rest with
        | nil => simp at htake
        | cons a t =>
          cases t with
          | nil => simp at htake
          | cons b t2 =>
            simp only [List.take_succ_cons, List.take_zero, List.cons.injEq, and_true] at htake
            exact ⟨t2, by rw [htake.1, htake.2]⟩
      obtain ⟨rs, rfl⟩ := hrest
      rw [List.cons_append, netlocChars_cons_of_pos ⟨rfl, by simp⟩,
        netlocChars_cons_of_pos ⟨rfl, by simp⟩]
      show (rs ++ List.replicate k '/').takeWhile (fun c => !netlocStop c) =
        rs.takeWhile (fun c => !netlocStop c)
      exact takeWhile_append_replicate_slash rs k
    · by_cases h2 : c = ':' ∧ (rest ++ List.replicate k '/').take 2 = ['/', '/']
      · -- appending slashes manufactured a separator: everything past it is slashes
        obtain ⟨rfl, htake2⟩ := h2
        have hrest : rest = [] ∨ rest = ['/'] := by
          cases rest with
          | nil => exact Or.inl rfl
          | cons a t =>
            cases t with
            | nil =>
              refine Or.inr ?_
              have ha : a = '/' := by
                cases k with
                | zero => simp at htake2
                | succ m =>
                  simp only [List.cons_append, List.nil_append, List.replicate,
                    List.take_succ_cons, List.take_zero, List.cons.injEq, and_true] at htake2
                  exact htake2
              rw [ha]
            | cons b t2 =>
              exfalso
              have hge : 2 ≤ (a :: b :: t2).length := by simp
              rw [List.take_append_of_le_length hge] at htake2
              exact h1 ⟨rfl, htake2⟩
        have hallslash : ∀ x ∈ rest ++ List.replicate k '/', x = '/' := by
          intro x hx
          rcases List.mem_append.mp hx with hx1 | hx2
          · rcases hrest with rfl | rfl
            · simp at hx1
            · simpa using hx1
          · exact List.eq_of_mem_replicate hx2
        have hleft : netlocChars (':' :: (rest ++ List.replicate k '/')) = [] := by
          rw [netlocChars_cons_of_pos ⟨rfl, htake2⟩]
          refine takeWhile_all_slash_eq_nil ?_
          intro x hx
          exact hallslash x (List.mem_of_mem_drop hx)
        have hright : netlocChars (':' :: rest) = [] := by
          rcases hrest with rfl | rfl <;> decide
        rw [List.cons_append, hleft, hright]
      · -- no separator at the head on either side: recurse
        rw [List.cons_append, netlocChars_cons_of_neg h2, ih, ← netlocChars_cons_of_neg h1]

theorem exists_rstrip_decomp (cs : List Char) :
    ∃ k, cs = (cs.reverse.dropWhile (· = '/')).reverse ++ List.replicate k '/' := by
  refine ⟨(cs.reverse.takeWhile (· = '/')).length, ?_⟩
  have hrepl : cs.reverse.takeWhile (· = '/') =
      List.replicate (cs.reverse.takeWhile (· = '/')).length '/' := by
    refine List.eq_replicate_of_mem ?_
    intro b hb
    have := List.mem_takeWhile_imp hb
    simpa using this
  calc cs = cs.reverse.reverse := (List.reverse_reverse cs).symm
    _ = (cs.reverse.takeWhile (· = '/') ++ cs.reverse.dropWhile (· = '/')).reverse := by
        rw [List.takeWhile_append_dropWhile]
    _ = (cs.reverse.dropWhile (· = '/')).reverse ++ (cs.reverse.takeWhile (· = '/')).reverse := by
        rw [List.reverse_append]
    _ = (cs.reverse.dropWhile (· = '/')).reverse ++
          List.replicate (cs.reverse.takeWhile (· = '/')).length '/' := by
        rw [congrArg List.reverse hrepl, List.reverse_replicate]

/-- Stripping trailing slashes (as `crawl_domain` does to its `domain`
argument) does not change the netloc. -/
theorem netlocOf_rstripSlash (s : String) : netlocOf (rstripSlash s) = netlocOf s := by
  obtain ⟨k, hk⟩ := exists_rstrip_decomp s.data
  show (⟨netlocChars (rstripSlash s).data⟩ : String) = ⟨netlocChars s.data⟩
  have hdata : (rstripSlash s).data = (s.data.reverse.dropWhile (· = '/')).reverse := rfl
  rw [hdata]
  conv_rhs => rw [hk]
  rw [netlocChars_append_replicate_slash]

/-! ## `crawler/scraper.py` — the bounded same-host BFS crawl -/

/-- A response from `requests.Session.get`: HTTP status, the `Content-Type`
header (empty string when absent, as `r.headers.get("Content-Type", "")`),
and the body text. -/
structure HttpResponse where
  status : Nat
  contentType : String
  text : String
deriving DecidableEq, Repr

/-- `crawler/scraper.py::_fetch`: the session either raises a
`requests.RequestException` (modelled as `Except.error`), which is caught and
turned into `None`, or yields a response, which is returned only when the
status is 200 and the Content-Type contains `"text/html"`. -/
def fetchHttp (resp : Except Unit HttpResponse) : Option HttpResponse :=
  match resp with
  | .error _ => none
  | .ok r => if r.status = 200 ∧ pyIn "text/html" r.contentType then some r else none

/-- Oracles for the crawl's external collaborators: the HTTP session
(`requests`), BeautifulSoup (`soup.title`, `_clean_text`, `_extract_links`
including per-link `urljoin`/`urldefrag` normalization), and the robots.txt
reader (`RobotFileParser.read`; `none` models a read that raises, which
`_robots_allowed` turns into allow-all). -/
structure ScrapeWorld where
  http : String → Except Unit HttpResponse
  soupTitle : String → Option String
  cleanText : String → String
  extractLinks : String → String → List String
  robotsRead : String → Option (String → Bool)

/-- `crawler/scraper.py::_robots_allowed` without the `CP_IGNORE_ROBOTS`
short-circuit: builds `{scheme}://{netloc}/robots.txt` from the root, reads
it (a fresh `RobotFileParser` every call), and fails open. -/
def robotsAllowedRead (w : ScrapeWorld) (root url : String) : Bool :=
  match w.robotsRead (robotsUrlOf root) with
  | none => true
  | some canFetch => canFetch url

/-- The keyword gate of `crawl_domain`:
`True if not keywords else any(k.strip().lower() in body_low for k in keywords if k.strip())`. -/
def kwOk (keywords : List String) (bodyLow : String) : Bool :=
  keywords.isEmpty ||
    (keywords.filter (fun k => pyStrip k ≠ "")).any
      (fun k => pyIn (pyLower (pyStrip k)) bodyLow)

/-- A `Page` record as written by `crawl_domain` (`{"url","title","text"}`). -/
structure PageRec where
  url : String
  title : Option String
  text : String
deriving DecidableEq, Repr

/-- The crawl loop's mutable state.  `pages` carries, as ghost data, the depth
of the queue entry each record originated from; `robotsLog` is a ghost log of
the robots.txt URLs fetched by `_robots_allowed`. -/
structure CrawlState where
  seen : List String
  queue : List (String × Nat)
  pages : List (PageRec × Nat)
  robotsLog : List String
deriving DecidableEq, Repr

/-- The `<title>` extraction of `crawl_domain`
(`if soup.title and soup.title.string: title = soup.title.string.strip()`). -/
def titleOf (w : ScrapeWorld) (html : String) : Option String :=
  match w.soupTitle html with
  | none => none
  | some s => if s = "" then none else some (pyStrip s)

/-- `crawler/scraper.py::_robots_allowed`, with its robots.txt fetch made
visible: the decision together with the list of robots.txt URLs fetched to
answer it (`CP_IGNORE_ROBOTS` answers `True` without fetching; otherwise a
fresh parser reads `{scheme}://{netloc}/robots.txt` on every call). -/
def robotsAllowedM (w : ScrapeWorld) (ignoreRobots : Bool) (root url : String) :
    Bool × List String :=
  if ignoreRobots then (true, [])
  else (robotsAllowedRead w root url, [robotsUrlOf root])

/-- One iteration of the `crawl_domain` loop on an already-dequeued
`(url, depth)` entry (`st.queue` holds the remaining entries).  `Sum.inl`
models `break` (the soft stop when the visited set exceeds
`max_pages * 8`), `Sum.inr` continues the loop. -/
def crawlIter (w : ScrapeWorld) (ignoreRobots : Bool) (root : String)
    (keywords : List String) (maxPages maxDepth : Nat) (url : String) (depth : Nat)
    (st : CrawlState) : CrawlState ⊕ CrawlState :=
  if url ∈ st.seen then .inr st
  else
    let st2 : CrawlState := { st with seen := url :: st.seen }
    if depth > maxDepth then .inr st2
    else if ¬ sameSite url root then .inr st2
    else
      let rb := robotsAllowedM w ignoreRobots root url
      let st3 : CrawlState := { st2 with robotsLog := st2.robotsLog ++ rb.2 }
      if ¬ rb.1 then .inr st3
      else
        match fetchHttp (w.http url) with
        | none => .inr st3
        | some r =>
          let html := r.text
          let title := titleOf w html
          let text := w.cleanText html
          let st4 : CrawlState :=
            { st3 with pages := st3.pages ++ [({ url := url, title := title, text := text }, depth)] }
          let bodyLow := pyLower (pyOrS title "") ++ " " ++ pyLower (pyTakeN 4000 text)
          let st5 : CrawlState :=
            if kwOk keywords bodyLow then
              { st4 with queue := st4.queue ++
                  (((w.extractLinks url html).filter
                    (fun l => !(st4.seen.contains l) && sameSite l root)).map
                    (fun l => (l, depth + 1))) }
            else st4
          if st5.seen.length > maxPages * 8 then .inl st5
          else .inr st5

/-- The state an iteration hands back, whether it broke or continued. -/
def iterState : CrawlState ⊕ CrawlState → CrawlState := Sum.elim id id

/-- The `while queue and len(pages) < max_pages` loop of `crawl_domain`,
driven by `fuel` (the Python loop terminates because at most `max_pages`
fetched pages can enqueue links; `fuel` bounds the number of iterations
without changing any state the loop reaches). -/
def crawlLoop (w : ScrapeWorld) (ignoreRobots : Bool) (root : String)
    (keywords : List String) (maxPages maxDepth : Nat) : Nat → CrawlState → CrawlState
  | 0, st => st
  | Nat.succ fuel, st =>
    match st.queue with
    | [] => st
    | (url, depth) :: rest =>
      if st.pages.length < maxPages then
        match crawlIter w ignoreRobots root keywords maxPages maxDepth url depth
          { st with queue := rest } with
        | .inl stop => stop
        | .inr next => crawlLoop w ignoreRobots root keywords maxPages maxDepth fuel next
      else st

/-- The record returned by `crawl_domain` (elapsed wall time omitted), plus
the final loop state as ghost data. -/
structure CrawlResult where
  domain : String
  pages_scanned : Nat
  sample_urls : List String
  used_fallback : Nat
  final : CrawlState
deriving DecidableEq, Repr

/-- `crawler/scraper.py::crawl_domain`.  `ignoreRobots` models the
`CP_IGNORE_ROBOTS` environment toggle; `fuel` bounds the loop (see
`crawlLoop`). -/
def crawl_domain (w : ScrapeWorld) (ignoreRobots : Bool) (domain : String)
    (keywords : List String) (maxPages maxDepth fuel : Nat) : CrawlResult :=
  let root := rstripSlash domain
  let final := crawlLoop w ignoreRobots root keywords maxPages maxDepth fuel
    { seen := [], queue := [(root, 0)], pages := [], robotsLog := [] }
  { domain := root
    pages_scanned := final.pages.length
    sample_urls := ((final.pages.map (fun p => p.1.url)).take 5)
    used_fallback := 0
    final := final }

/-! ## `crawler/crawler.py` + `crawler/utils.py` — the once-per-crawl robots variant -/

/-- A response as consumed by `crawler/crawler.py::crawl`: HTTP status,
`Content-Type` header, the canonical `<link rel="canonical">` href when
present (BeautifulSoup oracle), the `<title>` string when present, the
boilerplate-stripped main text (`extract_main_text` oracle), and the raw
`href` attributes of the `<a>` tags. -/
structure Http2Response where
  status : Nat
  contentType : String
  canonical : Option String
  title : Option String
  mainText : String
  hrefs : List String
deriving DecidableEq, Repr

/-- Oracles for `crawler/crawler.py`: `requests.get` (an exception is
`none`), `urllib.parse.urljoin`, and the robots.txt reader used by
`get_robots_parser` (`none` models the `except` branch that sets the parser
to `None`, i.e. allow-all). -/
structure Crawl2World where
  httpGet : String → Option Http2Response
  urljoin : String → String → String
  robotsFetch : String → Option (String → Bool)

/-- `crawler/utils.py::normalize_url`: drop the fragment, then one trailing
slash. -/
def normalize_url (u : String) : String :=
  let d : List Char := u.data.takeWhile (fun c => c ≠ '#')
  if d.getLast? = some '/' then ⟨d.dropLast⟩ else ⟨d⟩

/-- `crawler/utils.py::is_allowed_by_robots`: a `None` parser allows
everything. -/
def is_allowed_by_robots (rp : Option (String → Bool)) (url : String) : Bool :=
  match rp with
  | none => true
  | some canFetch => canFetch url

/-- A page record as appended by `crawler/crawler.py::crawl`
(timestamp and the constant `"status": "success"` omitted). -/
structure Page2 where
  url : String
  title : String
  text : String
deriving DecidableEq, Repr

/-- State of the `crawler/crawler.py::crawl` loop. -/
structure Crawl2State where
  visited : List String
  queue : List (String × Nat)
  results : List Page2
deriving DecidableEq, Repr

/-- The page-append and link-expansion tail of one `crawl` iteration, after
the canonical-URL bookkeeping chose `urlStore` as the URL to store. -/
def crawl2Process (w : Crawl2World) (baseDomain : String) (maxDepth : Nat)
    (r : Http2Response) (depth : Nat) (urlStore : String) (st : Crawl2State) : Crawl2State :=
  let st1 : Crawl2State :=
    { st with results := st.results ++
        [{ url := urlStore
           title := match r.title with | some s => pyStrip s | none => ""
           text := r.mainText }] }
  if depth < maxDepth then
    { st1 with queue := st1.queue ++
        (r.hrefs.filterMap (fun href =>
          let link := w.urljoin urlStore href
          let nl := normalize_url link
          if netlocOf link = baseDomain ∧ ¬ st1.visited.contains nl
          then some (nl, depth + 1) else none)) }
  else st1

/-- The `while queue` loop of `crawler/crawler.py::crawl` (fuel-bounded; the
parsed robots ruleset `rp` is fixed before the loop and never refetched). -/
def crawl2Loop (w : Crawl2World) (baseDomain : String) (maxDepth : Nat)
    (rp : Option (String → Bool)) : Nat → Crawl2State → Crawl2State
  | 0, st => st
  | Nat.succ fuel, st =>
    match st.queue with
    | [] => st
    | (url, depth) :: rest =>
      let st1 : Crawl2State := { st with queue := rest }
      if depth > maxDepth then crawl2Loop w baseDomain maxDepth rp fuel st1
      else
        let nu := normalize_url url
        if st1.visited.contains nu then crawl2Loop w baseDomain maxDepth rp fuel st1
        else
          let st2 : Crawl2State := { st1 with visited := nu :: st1.visited }
          if ¬ is_allowed_by_robots rp nu then crawl2Loop w baseDomain maxDepth rp fuel st2
          else
            match w.httpGet nu with
            | none => crawl2Loop w baseDomain maxDepth rp fuel st2
            | some r =>
              if ¬ (r.status = 200 ∧ pyIn "text/html" r.contentType) then
                crawl2Loop w baseDomain maxDepth rp fuel st2
              else
                match r.canonical with
                | some ch =>
                  let cu := normalize_url (w.urljoin nu ch)
                  if cu ≠ nu ∧ st2.visited.contains cu then
                    crawl2Loop w baseDomain maxDepth rp fuel st2
                  else
                    let st3 : Crawl2State :=
                      { st2 with visited :=
                          if st2.visited.contains cu then st2.visited else cu :: st2.visited }
                    crawl2Loop w baseDomain maxDepth rp fuel
                      (crawl2Process w baseDomain maxDepth r depth cu st3)
                | none =>
                  crawl2Loop w baseDomain maxDepth rp fuel
                    (crawl2Process w baseDomain maxDepth r depth nu st2)

/-- Result of `crawler/crawler.py::crawl`, with a ghost log of the robots.txt
URLs fetched during the call. -/
structure Crawl2Result where
  pages : List Page2
  robotsLog : List String

/-- `crawler/crawler.py::crawl`: `get_robots_parser(domain)` fetches
`{scheme}://{netloc}/robots.txt` exactly once, before the loop; the loop
consults only the parsed object. -/
def crawl2 (w : Crawl2World) (domain : String) (maxDepth fuel : Nat) : Crawl2Result :=
  let baseDomain := netlocOf domain
  let rp := w.robotsFetch (robotsUrlOf domain)
  let final := crawl2Loop w baseDomain maxDepth rp fuel
    { visited := [], queue := [(domain, 0)], results := [] }
  { pages := final.results, robotsLog := [robotsUrlOf domain] }

/-! ## `extractor/nlp_pipeline.py` — candidate generation, scoring, streaming dedup -/

/-- A spaCy entity span: label, surface text near-verbatim, and character
offsets into the page text (`ent.label_`, `ent.text`, `ent.start_char`,
`ent.end_char`). -/
structure SpacyEnt where
  label : String
  text : String
  startChar : Nat
  endChar : Nat
deriving DecidableEq, Repr

/-- A candidate dict as built by `_extract_candidates_from_page`, with the
`_features` dict flattened into the three feature fields and `_score` carried
in `score` (0 until `extract_entities` sets it). -/
structure Cand where
  name : String
  title : Option String
  org : Option String
  context_url : String
  snippet : String
  phone : Option String
  address : Option String
  passing_year : Option String
  has_title : ℚ
  has_org : ℚ
  richness : ℚ
  score : ℚ
deriving DecidableEq, Repr

/-- A parsed JSONL page line (`p.get("url")`, `p.get("text")`). -/
structure PageJson where
  url : Option String
  text : Option String
deriving DecidableEq, Repr

/-- Oracles for the extraction pipeline: `json.loads` on one line of the
pages file (`none` = raises), the spaCy NER (`nlp(text).ents`), the Python
`re` searches of `_extract_candidates_from_page` (`JOB_TITLE_RE.search`,
`TITLE_NEAR_RE.finditer` group 1 hits in order, `ORG_HINT_RE.search` group 2,
and the phone/address/year searches, each applied to the context window), and
the semantic backend of `_semantic_score` (SBERT cosine path or token-overlap
fallback, consumed as one black-box 0..1-intended value). -/
structure ExtractWorld where
  parse : String → Option PageJson
  ents : String → List SpacyEnt
  jobTitleSearch : String → Option String
  titleNearFinds : String → List String
  orgHintSearch : String → Option String
  phoneSearch : String → Option String
  addressSearch : String → Option String
  yearSearch : String → Option String
  semScore : String → List String → ℚ

/-- `nlp_pipeline.py::_window`: `text[max(0, s-r) : min(len(text), e+r)]`. -/
def pyWindow (text : String) (s e radius : Nat) : String :=
  pySlice text (s - radius) (min (pyLen text) (e + radius))

/-- `nlp_pipeline.py::_keywords_list`. -/
def keywordsList (keywords : List String) : List String :=
  keywords.filterMap (fun k =>
    if k ≠ "" ∧ pyStrip k ≠ "" then some (pyLower (pyStrip k)) else none)

/-- `nlp_pipeline.py::_semantic_score` with the embedding/overlap backend as
an oracle; the source's short-circuit for empty text or keywords is kept. -/
def semanticScore (w : ExtractWorld) (text : String) (keywords : List String) : ℚ :=
  if text = "" ∨ keywords = [] then 0 else w.semScore text keywords

/-- `nlp_pipeline.py::_page_title_boost`: `0.15` if the URL matches the
team/people/staff/mentor/leadership/about/profile/careers alternation
(case-insensitively), else `0`. -/
def pageTitleBoost (url : String) : ℚ :=
  if (["team", "people", "staff", "mentor", "leadership", "about", "profile",
      "careers"].any (fun word => pyIn word (pyLower url)))
  then 0.15 else 0

/-- `nlp_pipeline.py::_nearest_org`: the `ORG` span minimising
`min(|start - e|, |s - end|)`, scanning in order and keeping strictly closer
hits. -/
def nearestOrg (ents : List SpacyEnt) (s e : Nat) : Option String :=
  (ents.foldl (fun acc ent =>
    if ent.label = "ORG" then
      let d := min ((ent.startChar : ℤ) - (e : ℤ)).natAbs (((s : ℤ) - (ent.endChar : ℤ)).natAbs)
      match acc with
      | none => some (ent.text, d)
      | some (_, best) => if d < best then some (ent.text, d) else acc
    else acc) none).map Prod.fst

/-- The title guess of `_extract_candidates_from_page`: a `JOB_TITLE_RE`
match wins; otherwise the first `TITLE_NEAR_RE` fragment that does not
contain the entity text and has 2..7 words. -/
def titleGuessOf (w : ExtractWorld) (ctx : String) (entText : String) : Option String :=
  match w.jobTitleSearch ctx with
  | some m => some (pyStrip m)
  | none =>
    (w.titleNearFinds ctx).foldl (fun acc frag =>
      match acc with
      | some _ => acc
      | none =>
        let fragS := pyStrip frag
        if pyIn entText fragS then none
        else if 2 ≤ pyWordCount fragS ∧ pyWordCount fragS ≤ 7 then some fragS
        else none) none

/-- `nlp_pipeline.py::_extract_candidates_from_page`: one candidate per
`PERSON` span, with a ±260-character context window, a snippet that is the
stripped window truncated to 360 characters, and
`richness = min(1, len(ctx)/450)` computed from the window (not the
snippet). -/
def extractCandidates (w : ExtractWorld) (pageText pageUrl : String) : List Cand :=
  (w.ents pageText).filterMap (fun ent =>
    if ent.label = "PERSON" then
      let ctx := pyWindow pageText ent.startChar ent.endChar 260
      let titleGuess := titleGuessOf w ctx ent.text
      let orgGuess : Option String :=
        match nearestOrg (w.ents pageText) ent.startChar ent.endChar with
        | some o => some o
        | none => (w.orgHintSearch ctx).map pyStrip
      some
        { name := pyStrip ent.text
          title := titleGuess
          org := orgGuess
          context_url := pageUrl
          snippet := pyTakeN 360 (pyStrip ctx)
          phone := w.phoneSearch ctx
          address := w.addressSearch ctx
          passing_year := w.yearSearch ctx
          has_title := if pyOrS titleGuess "" ≠ "" then 1 else 0
          has_org := if pyOrS orgGuess "" ≠ "" then 1 else 0
          richness := pyMin 1 ((pyLen ctx : ℚ) / 450)
          score := 0 }
    else none)

/-- `nlp_pipeline.py::_score_candidate`: the two weighted compositions,
clamped into `[0, 1]`. -/
def scoreCandidate (w : ExtractWorld) (c : Cand) (keywords : List String) : ℚ :=
  let title := pyOrS c.title ""
  let snippet := c.snippet
  let textForSem := pyStrip (title ++ ". " ++ snippet)
  let sem := if keywords ≠ [] then semanticScore w textForSem keywords else 0
  let urlBoost := pageTitleBoost c.context_url
  clamp01 (if keywords ≠ [] then
    0.60 * sem + 0.20 * c.has_title + 0.10 * c.has_org + 0.10 * (c.richness + urlBoost)
  else
    0.45 * c.has_title + 0.20 * c.has_org + 0.35 * (c.richness + urlBoost))

/-- The scoring composition exactly as the specification words it, with
`snippet_richness = min(1, len(snippet)/450)` computed from the emitted
snippet and no clamp (modelled from the spec for comparison with
`scoreCandidate`). -/
def specScoreClaim (w : ExtractWorld) (c : Cand) (keywords : List String) : ℚ :=
  let title := pyOrS c.title ""
  let textForSem := pyStrip (title ++ ". " ++ c.snippet)
  let sem := if keywords ≠ [] then semanticScore w textForSem keywords else 0
  let snippetRichness := pyMin 1 ((pyLen c.snippet : ℚ) / 450)
  let urlBoost := pageTitleBoost c.context_url
  if keywords ≠ [] then
    0.60 * sem + 0.20 * c.has_title + 0.10 * c.has_org + 0.10 * (snippetRichness + urlBoost)
  else
    0.45 * c.has_title + 0.20 * c.has_org + 0.35 * (snippetRichness + urlBoost)

/-- The dedup key `(c["name"].lower(), (c.get("title") or "").lower(),
c.get("context_url") or "")`. -/
def keyOf (c : Cand) : String × String × String :=
  (pyLower c.name, pyLower (pyOrS c.title ""), c.context_url)

/-- Insertion into the `best` dict: a fresh key is appended (Python dicts
keep insertion order); on collision the strictly higher-scoring candidate
replaces the old one. -/
def dictInsertMax (m : List ((String × String × String) × Cand))
    (k : String × String × String) (c : Cand) : List ((String × String × String) × Cand) :=
  match m with
  | [] => [(k, c)]
  | (k0, c0) :: rest =>
    if k0 = k then
      if c.score > c0.score then (k, c) :: rest else (k0, c0) :: rest
    else (k0, c0) :: dictInsertMax rest k c

/-- Dict lookup for the association-list model of `best`. -/
def lookupK (m : List ((String × String × String) × Cand)) (k : String × String × String) :
    Option Cand :=
  match m with
  | [] => none
  | (k0, c0) :: rest => if k0 = k then some c0 else lookupK rest k

/-- Stable insertion (descending by `_score`) used to model
`sorted(best.values(), key=lambda x: x["_score"], reverse=True)`. -/
def insertDescByScore (c : Cand) : List Cand → List Cand
  | [] => [c]
  | d :: t => if c.score > d.score then c :: d :: t else d :: insertDescByScore c t

/-- Sort candidates by score, descending (stable). -/
def sortByScoreDesc (l : List Cand) : List Cand :=
  l.foldl (fun acc c => insertDescByScore c acc) []

/-- The half-to-even integer rounding underlying Python's `round`. -/
def round3aux (q : ℚ) : ℤ :=
  if q - ⌊q⌋ < 1/2 then ⌊q⌋
  else if (1:ℚ)/2 < q - ⌊q⌋ then ⌊q⌋ + 1
  else if ⌊q⌋ % 2 = 0 then ⌊q⌋ else ⌊q⌋ + 1

/-- Python `round(x, 3)` on the exact rational model. -/
def round3 (q : ℚ) : ℚ := (round3aux (1000 * q) : ℚ) / 1000

/-- An entity object as materialised by `_emit_entities`. -/
structure Entity where
  name : String
  type : String
  url : String
  snippet : String
  score : ℚ
  phone : Option String
  address : Option String
  passing_year : Option String
deriving DecidableEq, Repr

/-- One entity dict of `_emit_entities`. -/
def candToEntity (c : Cand) : Entity :=
  { name := c.name
    type := pyOrS c.title "Person"
    url := c.context_url
    snippet := c.snippet
    score := round3 c.score
    phone := c.phone
    address := c.address
    passing_year := c.passing_year }

/-- `_emit_entities`: the current `best` values, sorted by score descending,
mapped to entity dicts (and written to the entities file). -/
def materializeEnt (best : List ((String × String × String) × Cand)) : List Entity :=
  (sortByScoreDesc (best.map (fun kc => kc.2))).map candToEntity

/-- State of the streaming loop of `extract_entities`.  `fileContent` is the
JSON array currently persisted in the entities file; `produced` is a ghost
list of every scored candidate that reached the dedup map (i.e. survived the
semantic floor). -/
structure EState where
  best : List ((String × String × String) × Cand)
  pages_scanned : Nat
  first_page_url : String
  fileContent : List Entity
  produced : List Cand
deriving Repr

/-- One candidate of the per-page `for c in ...` loop of `extract_entities`:
score it, apply the semantic floor
(`kw and _semantic_score(title + " " + snippet, kw) < 0.15`), and fold the
survivor into `best` (appending it to the ghost `produced` list). -/
def candStep (w : ExtractWorld) (kw : List String) (c : Cand) (st : EState) : EState :=
  let scored : Cand := { c with score := scoreCandidate w c kw }
  if kw ≠ [] ∧ semanticScore w (pyOrS c.title "" ++ " " ++ c.snippet) kw < 0.15 then st
  else
    { st with
      best := dictInsertMax st.best (keyOf scored) scored
      produced := st.produced ++ [scored] }

/-- The whole per-page candidate loop. -/
def foldCands (w : ExtractWorld) (kw : List String) : List Cand → EState → EState
  | [], st => st
  | c :: rest, st => foldCands w kw rest (candStep w kw c st)

/-- One line of the streaming loop of `extract_entities`: strip, parse,
track `first_page_url`, skip text-less pages, otherwise extract candidates,
fold them into `best` and persist the materialisation. -/
def stepLine (w : ExtractWorld) (kw : List String) (line : String) (st : EState) : EState :=
  let l := pyStrip line
  if l = "" then st
  else
    match w.parse l with
    | none => st
    | some p =>
      let txt := pyOrS p.text ""
      let url := pyOrS p.url ""
      let st1 : EState :=
        if st.first_page_url = "" ∧ url ≠ "" then { st with first_page_url := url } else st
      if txt = "" then { st1 with pages_scanned := st1.pages_scanned + 1 }
      else
        let st2 := foldCands w kw (extractCandidates w txt url) st1
        let st3 : EState := { st2 with pages_scanned := st2.pages_scanned + 1 }
        { st3 with fileContent := materializeEnt st3.best }

/-- The streaming loop itself: before each line the cancel marker is polled
(`cancel i` is whether `os.path.exists(cancel_path)` holds at the `i`-th
poll); a hit breaks out of the loop. -/
def exLoop (w : ExtractWorld) (kw : List String) (cancel : Nat → Bool) :
    List String → Nat → EState → EState
  | [], _, st => st
  | line :: rest, i, st =>
    if cancel i then st
    else exLoop w kw cancel rest (i + 1) (stepLine w kw line st)

/-- The list of states after each non-cancelled iteration of the streaming
loop (ghost trace used to state the after-every-page persistence property). -/
def exStates (w : ExtractWorld) (kw : List String) (cancel : Nat → Bool) :
    List String → Nat → EState → List EState
  | [], _, _ => []
  | line :: rest, i, st =>
    if cancel i then []
    else
      let st1 := stepLine w kw line st
      st1 :: exStates w kw cancel rest (i + 1) st1

/-- The record returned by `extract_entities`, with ghost fields (`best`,
`produced`, `states`). -/
structure ExtractResult where
  domain : String
  pages_scanned : Nat
  entities : List Entity
  entities_count : Nat
  cancelled : Nat
  best : List ((String × String × String) × Cand)
  produced : List Cand
  fileContent : List Entity
  states : List EState
deriving Repr

/-- The body of `extract_entities` once the pages file has been opened
(`lines` are its lines).  The output file starts as the empty JSON array;
after the loop `_emit_entities()` runs once more and its value is returned. -/
def extractRun (w : ExtractWorld) (lines : List String) (keywords : List String)
    (cancel : Nat → Bool) : ExtractResult :=
  let kw := keywordsList keywords
  let st0 : EState :=
    { best := [], pages_scanned := 0, first_page_url := "", fileContent := [], produced := [] }
  let stf := exLoop w kw cancel lines 0 st0
  let entities := materializeEnt stf.best
  { domain := if netlocOf stf.first_page_url = "" then ""
      else "https://" ++ netlocOf stf.first_page_url
    pages_scanned := stf.pages_scanned
    entities := entities
    entities_count := entities.length
    cancelled := if cancel lines.length then 1 else 0
    best := stf.best
    produced := stf.produced
    fileContent := materializeEnt stf.best
    states := exStates w kw cancel lines 0 st0 }

/-- `extract_entities` as called with a pages path: a missing pages file
makes `open` raise (`Except.error`); otherwise the streaming run happens. -/
def extract_entities (w : ExtractWorld) (pagesFile : Option (List String))
    (keywords : List String) (cancel : Nat → Bool) : Except Unit ExtractResult :=
  match pagesFile with
  | none => .error ()
  | some lines => .ok (extractRun w lines keywords cancel)

/-! ## `crawler/storage.py::JSONLStorage.read_all` -/

/-- The line loop of `read_all`: non-blank lines are parsed and appended; a
parse failure raises out of the loop and the `except` handler returns the
pages collected so far. -/
def readAllGo {α : Type} (parse : String → Option α) : List String → List α → List α
  | [], acc => acc
  | l :: rest, acc =>
    if pyStrip l ≠ "" then
      match parse l with
      | some j => readAllGo parse rest (acc ++ [j])
      | none => acc
    else readAllGo parse rest acc

/-- `JSONLStorage.read_all`: a missing file yields `[]`; otherwise the lines
are folded by `readAllGo`. -/
def read_all {α : Type} (file : Option (List String)) (parse : String → Option α) : List α :=
  match file with
  | none => []
  | some lines => readAllGo parse lines []

/-! ## `extractor/ai_enhance.py` — the optional semantic enhancer -/

/-- `ai_enhance.py::CANON_LABELS`. -/
def CANON_LABELS : List String :=
  ["Minister", "Prime Minister", "Cabinet Minister", "Minister of State",
   "Judge", "Justice", "Chief Justice", "Magistrate",
   "Attorney General", "Deputy Attorney General", "U.S. Attorney", "Public Prosecutor",
   "Secretary", "Cabinet Secretary", "Home Secretary", "Health Secretary",
   "Commissioner", "Registrar", "Chancellor", "Vice-Chancellor", "Pro Vice-Chancellor",
   "Director", "Dean", "Professor", "Scientist", "Researcher",
   "Organization", "Department", "Agency",
   "Person", "Leader", "Executive", "Manager", "Engineer"]

/-- A raw candidate handed to `enhance_entities` (missing string keys are
`""`). -/
structure RawIn where
  name : String
  url : String
  context_url : String
  snippet : String
  score : ℚ
deriving DecidableEq, Repr

/-- An enriched/output entity of `enhance_entities`. -/
structure EnhEnt where
  name : String
  url : String
  type : String
  snippet : String
  score : ℚ
deriving DecidableEq, Repr

/-- Oracles for the enhancer: the SBERT cosine `qv @ dv` for a (name,
snippet) pair (`none` models an exception inside the `try`), the zero-shot
classifier (top label, `none` models failure or an unusable result), sklearn
availability and its clustering output, and the regex/fuzz-driven
`best_sentence_for_snippet`. -/
structure EnhWorld where
  sbert : String → String → Option ℚ
  zsl : String → List String → Option String
  skAvail : Bool
  clusterGroups : List EnhEnt → List (List Nat)
  pickSnippet : String → String → List String → String

/-- `ai_enhance.py::infer_label_zsl`: zero-shot label if usable, else the
keyword-trigger fallback table. -/
def infer_label_zsl (w : EnhWorld) (text : String) (candidateLabels : Option (List String)) :
    String :=
  match w.zsl text (candidateLabels.getD CANON_LABELS) with
  | some lab => lab
  | none =>
    let t := pyLower text
    if pyIn "minister" t then "Minister"
    else if pyIn "secretary" t then "Secretary"
    else if pyIn "chief justice" t || pyIn "justice" t || pyIn "judge" t then "Judge"
    else if pyIn "professor" t || pyIn "research" t || pyIn "faculty" t then "Professor"
    else "Person"

/-- `ai_enhance.py::cluster_by_name`: singleton groups when sklearn is
unavailable or fewer than 3 items; the clustering result is an oracle
otherwise. -/
def cluster_by_name (w : EnhWorld) (ents : List EnhEnt) : List (List Nat) :=
  if ents.length = 0 then []
  else if ¬ w.skAvail ∨ ents.length < 3 then (List.range ents.length).map (fun i => [i])
  else w.clusterGroups ents

/-- The `text_by_url` dict of `enhance_entities` (later pages overwrite
earlier ones; pages with a falsy url are skipped). -/
def textByUrl (pages : List PageJson) (u : String) : String :=
  match (pages.filter (fun p => pyOrS p.url "" ≠ "")).reverse.find?
      (fun p => pyOrS p.url "" = u) with
  | some p => p.text.getD ""
  | none => ""

/-- The `sim` value of `enhance_entities`:
`sims = sbert_similarity(name, [snip]) if snip else [0.0]` followed by
`sim = float(max(sims[0], 0.0))`, with the whole `try` collapsing to `0.0`
on an exception (`none` from the oracle). -/
def enhSim (w : EnhWorld) (name snip : String) : ℚ :=
  if snip = "" then pyMax 0 0
  else match w.sbert name snip with
    | some cosine => pyMax (clamp01 cosine) 0
    | none => 0

/-- The keyword-coverage bonus `min(0.3, 0.1 * hits)`. -/
def enhKwBonus (kwords : List String) (snip : String) : ℚ :=
  if kwords ≠ [] then
    pyMin 0.3 (0.1 * ((kwords.filter (fun k => pyIn (pyLower k) (pyLower snip))).length : ℚ))
  else 0

/-- Enrichment of one raw candidate: URL propagation, snippet selection,
zero-shot label, similarity/keyword blend
`max(base_score, 0.7*sim + kw_bonus)`. -/
def enrichOne (w : EnhWorld) (pages : List PageJson) (kwords : List String)
    (candidateLabels : Option (List String)) (e : RawIn) : EnhEnt :=
  let name := pyStrip e.name
  let url := if e.url ≠ "" then e.url else if e.context_url ≠ "" then e.context_url else ""
  let fullText :=
    if textByUrl pages url ≠ "" then textByUrl pages url
    else if e.snippet ≠ "" then e.snippet else ""
  let snip := w.pickSnippet fullText name kwords
  let zslText := if snip ≠ "" then name ++ ". " ++ snip else name
  let inferred := infer_label_zsl w zslText candidateLabels
  { name := e.name
    url := url
    type := inferred
    snippet := snip
    score := pyMax e.score (0.7 * enhSim w name snip + enhKwBonus kwords snip) }

/-- Python `max(items, key=score)`: first maximal element. -/
def pyMaxByScore : List EnhEnt → Option EnhEnt
  | [] => none
  | x :: t => some (t.foldl (fun b y => if y.score > b.score then y else b) x)

/-- The final `(name, url)` dedup key of `enhance_entities`:
`(str(r.get("name","")).strip().lower(), str(r.get("url","")).strip().lower())`. -/
def ekeyOf (r : EnhEnt) : String × String := (pyLower (pyStrip r.name), pyLower (pyStrip r.url))

/-- The final uniqueness pass of `enhance_entities`: keep the first entity
for each `(name, url)` key. -/
def dedupByEkey : List EnhEnt → List (String × String) → List EnhEnt → List EnhEnt
  | [], _, acc => acc
  | r :: t, seen, acc =>
    if seen.contains (ekeyOf r) then dedupByEkey t seen acc
    else dedupByEkey t (seen ++ [ekeyOf r]) (acc ++ [r])

/-- `ai_enhance.py::enhance_entities`. -/
def enhance_entities (w : EnhWorld) (pages : List PageJson) (raw : List RawIn)
    (keywords : List String) (candidateLabels : Option (List String)) : List EnhEnt :=
  if raw.isEmpty then []
  else
    let kwords := keywords.filter (fun k => pyStrip k ≠ "")
    let enriched := raw.map (enrichOne w pages kwords candidateLabels)
    let clusters := cluster_by_name w enriched
    let selected := clusters.foldl (fun acc g =>
      match pyMaxByScore (g.filterMap (fun i => enriched.get? i)) with
      | some b => acc ++ [b]
      | none => acc) []
    let clustered := clusters.flatten
    let nonClustered := ((List.range enriched.length).filter
      (fun i => ¬ clustered.contains i)).filterMap (fun i => enriched.get? i)
    dedupByEkey (selected ++ nonClustered) [] []

/-! ## Crawl loop invariants -/

theorem robotsAllowedM_snd (w : ScrapeWorld) (ir : Bool) (root url : String) :
    ∀ e ∈ (robotsAllowedM w ir root url).2, e = robotsUrlOf root := by
  intro e he
  by_cases hir : ir <;> simp [robotsAllowedM, hir] at he
  exact he

theorem iterState_inl (s : CrawlState) : iterState (.inl s) = s := rfl

theorem iterState_inr (s : CrawlState) : iterState (.inr s) = s := rfl

theorem crawlIter_pages (w : ScrapeWorld) (ir : Bool) (root : String) (kws : List String)
    (mp md : Nat) (url : String) (depth : Nat) (st : CrawlState) :
    (iterState (crawlIter w ir root kws mp md url depth st)).pages = st.pages ∨
      ∃ pr : PageRec,
        (iterState (crawlIter w ir root kws mp md url depth st)).pages = st.pages ++ [(pr, depth)] ∧
        pr.url = url ∧ depth ≤ md ∧ sameSite url root = true := by
  rcases hrb : robotsAllowedM w ir root url with ⟨rb1, rb2⟩
  by_cases h1 : url ∈ st.seen
  · exact Or.inl (by simp [crawlIter, h1, iterState_inr])
  · by_cases h2 : depth > md
    · exact Or.inl (by simp [crawlIter, h1, h2, iterState_inr])
    · by_cases h3 : sameSite url root
      · by_cases h4 : rb1 = true
        · rcases hf : fetchHttp (w.http url) with _ | r
          · exact Or.inl (by simp [crawlIter, h1, h2, h3, hrb, h4, hf, iterState_inr])
          · simp only [crawlIter, h1, h2, h3, hrb, h4, hf, not_true_eq_false,
              Bool.false_eq_true, if_false]
            split_ifs <;>
              exact Or.inr ⟨⟨url, titleOf w r.text, w.cleanText r.text⟩,
                by simp [iterState_inl, iterState_inr], rfl, by omega, by simp [h3]⟩
        · exact Or.inl (by simp [crawlIter, h1, h2, h3, hrb, h4, iterState_inr])
      · exact Or.inl (by simp [crawlIter, h1, h2, h3, iterState_inr])

theorem crawlIter_queue (w : ScrapeWorld) (ir : Bool) (root : String) (kws : List String)
    (mp md : Nat) (url : String) (depth : Nat) (st : CrawlState) :
    ∃ extra, (iterState (crawlIter w ir root kws mp md url depth st)).queue = st.queue ++ extra ∧
      ∀ q ∈ extra, sameSite q.1 root = true ∧ q.2 = depth + 1 := by
  rcases hrb : robotsAllowedM w ir root url with ⟨rb1, rb2⟩
  by_cases h1 : url ∈ st.seen
  · exact ⟨[], by simp [crawlIter, h1, iterState_inr], by simp⟩
  · by_cases h2 : depth > md
    · exact ⟨[], by simp [crawlIter, h1, h2, iterState_inr], by simp⟩
    · by_cases h3 : sameSite url root
      · by_cases h4 : rb1 = true
        · rcases hf : fetchHttp (w.http url) with _ | r
          · exact ⟨[], by simp [crawlIter, h1, h2, h3, hrb, h4, hf, iterState_inr], by simp⟩
          · simp only [crawlIter, h1, h2, h3, hrb, h4, hf, not_true_eq_false,
              Bool.false_eq_true, if_false]
            have hmem : ∀ q ∈ List.map (fun l => (l, depth + 1))
                (List.filter (fun l => !(url :: st.seen).contains l && sameSite l root)
                  (w.extractLinks url r.text)),
                sameSite q.1 root = true ∧ q.2 = depth + 1 := by
              intro q hq
              simp only [List.mem_map, List.mem_filter, Bool.and_eq_true] at hq
              obtain ⟨l, hl, rfl⟩ := hq
              exact ⟨hl.2.2, rfl⟩
            split_ifs
            · exact ⟨_, by simp [iterState_inl, iterState_inr], hmem⟩
            · exact ⟨_, by simp [iterState_inl, iterState_inr], hmem⟩
            · exact ⟨[], by simp [iterState_inl, iterState_inr], by simp⟩
            · exact ⟨[], by simp [iterState_inl, iterState_inr], by simp⟩
        · exact ⟨[], by simp [crawlIter, h1, h2, h3, hrb, h4, iterState_inr], by simp⟩
      · exact ⟨[], by simp [crawlIter, h1, h2, h3, iterState_inr], by simp⟩

theorem crawlIter_robots (w : ScrapeWorld) (ir : Bool) (root : String) (kws : List String)
    (mp md : Nat) (url : String) (depth : Nat) (st : CrawlState) :
    ∃ rextra,
      (iterState (crawlIter w ir root kws mp md url depth st)).robotsLog =
        st.robotsLog ++ rextra ∧
      ∀ e ∈ rextra, e = robotsUrlOf root := by
  have hrb2 := robotsAllowedM_snd w ir root url
  rcases hrb : robotsAllowedM w ir root url with ⟨rb1, rb2⟩
  rw [hrb] at hrb2
  by_cases h1 : url ∈ st.seen
  · exact ⟨[], by simp [crawlIter, h1, iterState_inr], by simp⟩
  · by_cases h2 : depth > md
    · exact ⟨[], by simp [crawlIter, h1, h2, iterState_inr], by simp⟩
    · by_cases h3 : sameSite url root
      · by_cases h4 : rb1 = true
        · rcases hf : fetchHttp (w.http url) with _ | r
          · exact ⟨rb2, by simp [crawlIter, h1, h2, h3, hrb, h4, hf, iterState_inr], hrb2⟩
          · simp only [crawlIter, h1, h2, h3, hrb, h4, hf, not_true_eq_false,
              Bool.false_eq_true, if_false]
            split_ifs <;>
              exact ⟨rb2, by simp [iterState_inl, iterState_inr], hrb2⟩
        · exact ⟨rb2, by simp [crawlIter, h1, h2, h3, hrb, h4, iterState_inr], hrb2⟩
      · exact ⟨[], by simp [crawlIter, h1, h2, h3, iterState_inr], by simp⟩

theorem crawlLoop_pages_bound (w : ScrapeWorld) (ir : Bool) (root : String)
    (kws : List String) (mp md : Nat) :
    ∀ fuel st, st.pages.length ≤ mp →
      ((crawlLoop w ir root kws mp md fuel st).pages).length ≤ mp := by
  intro fuel
  induction fuel with
  | zero => intro st h; simpa [crawlLoop] using h
  | succ n ih =>
    intro st h
    cases hq : st.queue with
    | nil => simpa [crawlLoop, hq] using h
    | cons head rest =>
      obtain ⟨url, depth⟩ := head
      by_cases hlt : st.pages.length < mp
      · have hp := crawlIter_pages w ir root kws mp md url depth { st with queue := rest }
        rcases hit : crawlIter w ir root kws mp md url depth { st with queue := rest }
          with s | s <;>
          rw [hit] at hp <;>
          simp only [iterState_inl, iterState_inr] at hp <;>
          simp only [crawlLoop, hq, if_pos hlt, hit]
        · rcases hp with hpe | ⟨pr, hpe, -, -, -⟩
          · simp only [hpe]
            simpa using le_of_lt hlt
          · simp only [hpe]
            simp only [List.length_append, List.length_cons, List.length_nil]
            omega
        · refine ih s ?_
          rcases hp with hpe | ⟨pr, hpe, -, -, -⟩
          · simp only [hpe]
            simpa using le_of_lt hlt
          · simp only [hpe]
            simp only [List.length_append, List.length_cons, List.length_nil]
            omega
      · simpa [crawlLoop, hq, hlt] using h

theorem crawlLoop_pages_inv (w : ScrapeWorld) (ir : Bool) (root : String)
    (kws : List String) (mp md : Nat) :
    ∀ fuel st, (∀ pd ∈ st.pages, pd.2 ≤ md ∧ sameSite pd.1.url root = true) →
      ∀ pd ∈ (crawlLoop w ir root kws mp md fuel st).pages,
        pd.2 ≤ md ∧ sameSite pd.1.url root = true := by
  intro fuel
  induction fuel with
  | zero => intro st h; simpa [crawlLoop] using h
  | succ n ih =>
    intro st h
    cases hq : st.queue with
    | nil => simpa [crawlLoop, hq] using h
    | cons head rest =>
      obtain ⟨url, depth⟩ := head
      by_cases hlt : st.pages.length < mp
      · have hp := crawlIter_pages w ir root kws mp md url depth { st with queue := rest }
        have hinv : ∀ s, crawlIter w ir root kws mp md url depth { st with queue := rest } =
            .inl s ∨ crawlIter w ir root kws mp md url depth { st with queue := rest } = .inr s →
            ∀ pd ∈ s.pages, pd.2 ≤ md ∧ sameSite pd.1.url root = true := by
          intro s hs
          have hps : (iterState (crawlIter w ir root kws mp md url depth
              { st with queue := rest })).pages = s.pages := by
            rcases hs with hs | hs <;> rw [hs] <;> rfl
          rw [hps] at hp
          rcases hp with hpe | ⟨pr, hpe, hpu, hd, hss⟩
          · intro pd hpd
            rw [hpe] at hpd
            exact h pd hpd
          · intro pd hpd
            rw [hpe] at hpd
            rcases List.mem_append.mp hpd with hin | hin
            · exact h pd hin
            · have : pd = (pr, depth) := by simpa using hin
              subst this
              refine ⟨hd, ?_⟩
              simpa [hpu] using hss
        rcases hit : crawlIter w ir root kws mp md url depth { st with queue := rest }
          with s | s <;> simp only [crawlLoop, hq, if_pos hlt, hit]
        · exact hinv s (Or.inl hit)
        · exact ih s (hinv s (Or.inr hit))
      · simpa [crawlLoop, hq, hlt] using h

theorem crawlLoop_queue_inv (w : ScrapeWorld) (ir : Bool) (root : String)
    (kws : List String) (mp md : Nat) :
    ∀ fuel st, (∀ q ∈ st.queue, sameSite q.1 root = true) →
      ∀ q ∈ (crawlLoop w ir root kws mp md fuel st).queue, sameSite q.1 root = true := by
  intro fuel
  induction fuel with
  | zero => intro st h; simpa [crawlLoop] using h
  | succ n ih =>
    intro st h
    cases hq : st.queue with
    | nil =>
      intro q hin
      rw [crawlLoop, hq] at hin
      exact h q hin
    | cons head rest =>
      obtain ⟨url, depth⟩ := head
      by_cases hlt : st.pages.length < mp
      · have hrest : ∀ q ∈ rest, sameSite q.1 root = true := by
          intro q hin
          exact h q (by rw [hq]; exact List.mem_cons_of_mem _ hin)
        obtain ⟨extra, hque, hex⟩ :=
          crawlIter_queue w ir root kws mp md url depth { st with queue := rest }
        have hinv : ∀ s, crawlIter w ir root kws mp md url depth { st with queue := rest } =
            .inl s ∨ crawlIter w ir root kws mp md url depth { st with queue := rest } = .inr s →
            ∀ q ∈ s.queue, sameSite q.1 root = true := by
          intro s hs
          have hqs : (iterState (crawlIter w ir root kws mp md url depth
              { st with queue := rest })).queue = s.queue := by
            rcases hs with hs | hs <;> rw [hs] <;> rfl
          rw [hqs] at hque
          intro q hin
          rw [hque] at hin
          rcases List.mem_append.mp hin with hin | hin
          · exact hrest q (by simpa using hin)
          · exact (hex q hin).1
        rcases hit : crawlIter w ir root kws mp md url depth { st with queue := rest }
          with s | s <;> simp only [crawlLoop, hq, if_pos hlt, hit]
        · exact hinv s (Or.inl hit)
        · exact ih s (hinv s (Or.inr hit))
      · simpa [crawlLoop, hq, hlt] using h

theorem crawlLoop_robots_inv (w : ScrapeWorld) (ir : Bool) (root : String)
    (kws : List String) (mp md : Nat) :
    ∀ fuel st, (∀ e ∈ st.robotsLog, e = robotsUrlOf root) →
      ∀ e ∈ (crawlLoop w ir root kws mp md fuel st).robotsLog, e = robotsUrlOf root := by
  intro fuel
  induction fuel with
  | zero => intro st h; simpa [crawlLoop] using h
  | succ n ih =>
    intro st h
    cases hq : st.queue with
    | nil => simpa [crawlLoop, hq] using h
    | cons head rest =>
      obtain ⟨url, depth⟩ := head
      by_cases hlt : st.pages.length < mp
      · obtain ⟨rextra, hlog, hre⟩ :=
          crawlIter_robots w ir root kws mp md url depth { st with queue := rest }
        have hinv : ∀ s, crawlIter w ir root kws mp md url depth { st with queue := rest } =
            .inl s ∨ crawlIter w ir root kws mp md url depth { st with queue := rest } = .inr s →
            ∀ e ∈ s.robotsLog, e = robotsUrlOf root := by
          intro s hs
          have hls : (iterState (crawlIter w ir root kws mp md url depth
              { st with queue := rest })).robotsLog = s.robotsLog := by
            rcases hs with hs | hs <;> rw [hs] <;> rfl
          rw [hls] at hlog
          intro e hin
          rw [hlog] at hin
          rcases List.mem_append.mp hin with hin | hin
          · exact h e (by simpa using hin)
          · exact hre e hin
        rcases hit : crawlIter w ir root kws mp md url depth { st with queue := rest }
          with s | s <;> simp only [crawlLoop, hq, if_pos hlt, hit]
        · exact hinv s (Or.inl hit)
        · exact ih s (hinv s (Or.inr hit))
      · simpa [crawlLoop, hq, hlt] using h

/-! ## Demo worlds for concrete runs -/

/-- A small concrete crawl world: the root of `http://e.com` serves an HTML
page linking to one same-host and one off-host URL; every other fetch raises. -/
def wDemo : ScrapeWorld :=
  { http := fun u => if u = "http://e.com" then .ok ⟨200, "text/html", "<html>"⟩ else .error ()
    soupTitle := fun _ => some "Home"
    cleanText := fun _ => "team alice"
    extractLinks := fun _ _ => ["http://e.com/a", "http://other.org/x"]
    robotsRead := fun _ => some (fun _ => true) }

/-- A concrete world for `crawler/crawler.py::crawl` in which every request
raises. -/
def w2Demo : Crawl2World :=
  { httpGet := fun _ => none
    urljoin := fun _ l => l
    robotsFetch := fun _ => none }

/-! ## Claims about the crawler -/

/-- C1: for every crawl invocation with positive `max_pages` and
`max_depth ≥ 0`, `crawl_domain` returns `pages_scanned ≤ max_pages`, and
every emitted page record was dequeued at a depth of at most `max_depth`
(the ghost depth stored beside each record is the depth of the queue entry
it originated from). -/
theorem C1_crawl_bounds (w : ScrapeWorld) (ir : Bool) (domain : String)
    (keywords : List String) (max_pages max_depth fuel : Nat) (_hmp : 0 < max_pages) :
    (crawl_domain w ir domain keywords max_pages max_depth fuel).pages_scanned ≤ max_pages ∧
    ∀ pd ∈ (crawl_domain w ir domain keywords max_pages max_depth fuel).final.pages,
      pd.2 ≤ max_depth := by
  constructor
  · exact crawlLoop_pages_bound w ir (rstripSlash domain) keywords max_pages max_depth fuel
      { seen := [], queue := [(rstripSlash domain, 0)], pages := [], robotsLog := [] }
      (by simp)
  · intro pd hpd
    exact (crawlLoop_pages_inv w ir (rstripSlash domain) keywords max_pages max_depth fuel
      { seen := [], queue := [(rstripSlash domain, 0)], pages := [], robotsLog := [] }
      (by simp) pd hpd).1

/-- Witness for C1 at a concrete world and bounds. -/
theorem C1_crawl_bounds_witness :
    (crawl_domain wDemo false "http://e.com" [] 3 1 10).pages_scanned ≤ 3 ∧
    ((⟨"http://e.com", some "Home", "team alice"⟩ : PageRec), 0).2 ≤ 1 :=
  ⟨(C1_crawl_bounds wDemo false "http://e.com" [] 3 1 10 (by decide)).1,
   (C1_crawl_bounds wDemo false "http://e.com" [] 3 1 10 (by decide)).2
     ((⟨"http://e.com", some "Home", "team alice"⟩ : PageRec), 0) (by decide)⟩

/-- C5: every emitted page record is same-host with the input `domain`
(off-host URLs are dropped at dequeue time), and every entry ever enqueued —
in particular everything still in the final queue — is same-host with the
crawl root (off-host links are never enqueued). -/
theorem C5_same_host (w : ScrapeWorld) (ir : Bool) (domain : String)
    (keywords : List String) (max_pages max_depth fuel : Nat) :
    (∀ pd ∈ (crawl_domain w ir domain keywords max_pages max_depth fuel).final.pages,
      pyLower (netlocOf pd.1.url) = pyLower (netlocOf domain)) ∧
    (∀ q ∈ (crawl_domain w ir domain keywords max_pages max_depth fuel).final.queue,
      sameSite q.1 (rstripSlash domain) = true) := by
  constructor
  · intro pd hpd
    have h := (crawlLoop_pages_inv w ir (rstripSlash domain) keywords max_pages max_depth fuel
      { seen := [], queue := [(rstripSlash domain, 0)], pages := [], robotsLog := [] }
      (by simp) pd hpd).2
    have h2 : pyLower (netlocOf pd.1.url) = pyLower (netlocOf (rstripSlash domain)) :=
      of_decide_eq_true h
    rw [h2, netlocOf_rstripSlash]
  · intro q hq
    exact crawlLoop_queue_inv w ir (rstripSlash domain) keywords max_pages max_depth fuel
      { seen := [], queue := [(rstripSlash domain, 0)], pages := [], robotsLog := [] }
      (by simp [sameSite]) q hq

/-- Witness for C5 at a concrete world (with `max_pages = 1` the crawl stops
with the same-host link still queued). -/
theorem C5_same_host_witness :
    pyLower (netlocOf "http://e.com") = pyLower (netlocOf "http://e.com") ∧
    sameSite "http://e.com/a" (rstripSlash "http://e.com") = true :=
  ⟨(C5_same_host wDemo false "http://e.com" [] 3 1 10).1
      ((⟨"http://e.com", some "Home", "team alice"⟩ : PageRec), 0) (by decide),
   (C5_same_host wDemo false "http://e.com" [] 1 1 10).2 ("http://e.com/a", 1) (by decide)⟩

/-- C6: the fetcher returns a page exactly when the session yielded a
response (rather than raising) with status 200 and a `text/html`-family
`Content-Type`; in particular an `application/json` response yields no page.
`fetchHttp` is a total function into `Option`, so no outcome escapes as an
exception. -/
theorem C6_fetch_gate :
    (∀ resp : Except Unit HttpResponse,
      (fetchHttp resp).isSome = true ↔
        ∃ r, resp = .ok r ∧ r.status = 200 ∧ pyIn "text/html" r.contentType = true) ∧
    fetchHttp (.ok ⟨200, "application/json", "irrelevant"⟩) = none := by
  constructor
  · intro resp
    constructor
    · intro h
      cases resp with
      | error e => simp [fetchHttp] at h
      | ok r =>
        by_cases hc : r.status = 200 ∧ pyIn "text/html" r.contentType
        · exact ⟨r, rfl, hc.1, hc.2⟩
        · simp [fetchHttp, hc] at h
    · rintro ⟨r, rfl, hs, hc⟩
      simp [fetchHttp, hs, hc]
  · decide

/-- C7 counterexample: a two-URL same-host crawl in which `crawl_domain`
fetches `http://e.com/robots.txt` twice — once per robots-checked URL — so
the robots ruleset is not fetched "at most once per host per crawl" and no
query is answered from a cache. -/
theorem C7_counterexample :
    (crawl_domain wDemo false "http://e.com" [] 5 1 10).final.robotsLog =
      ["http://e.com/robots.txt", "http://e.com/robots.txt"] := by
  decide

/-- C7 (amended): in `crawler/crawler.py::crawl`, robots.txt is fetched and
parsed exactly once per crawl, before the loop, and every `allowed` query is
answered from that parsed ruleset; in `crawler/scraper.py::crawl_domain`,
`_robots_allowed` instead constructs a fresh parser and refetches
`{scheme}://{netloc}/robots.txt` on every query — one fetch per checked URL
with no per-host cache, though every fetch does target the crawl root's
robots URL. -/
theorem C7_robots_fetch_amended :
    (∀ (w2 : Crawl2World) (d : String) (md fuel : Nat),
      (crawl2 w2 d md fuel).robotsLog = [robotsUrlOf d]) ∧
    (∀ (w : ScrapeWorld) (ir : Bool) (d : String) (kws : List String) (mp md fuel : Nat),
      ∀ e ∈ (crawl_domain w ir d kws mp md fuel).final.robotsLog,
        e = robotsUrlOf (rstripSlash d)) := by
  constructor
  · intro w2 d md fuel
    rfl
  · intro w ir d kws mp md fuel e he
    exact crawlLoop_robots_inv w ir (rstripSlash d) kws mp md fuel
      { seen := [], queue := [(rstripSlash d, 0)], pages := [], robotsLog := [] }
      (by simp) e he

/-- Witness for the amended C7 at concrete worlds. -/
theorem C7_robots_fetch_amended_witness :
    (crawl2 w2Demo "http://e.com" 1 5).robotsLog = [robotsUrlOf "http://e.com"] ∧
    "http://e.com/robots.txt" = robotsUrlOf (rstripSlash "http://e.com") :=
  ⟨C7_robots_fetch_amended.1 w2Demo "http://e.com" 1 5,
   C7_robots_fetch_amended.2 wDemo false "http://e.com" [] 5 1 10
     "http://e.com/robots.txt" (by decide)⟩

/-! ## Dedup-map lemmas (`best` dict of `extract_entities`) -/

theorem lookupK_cons (k0 : String × String × String) (c0 : Cand)
    (rest : List ((String × String × String) × Cand)) (k' : String × String × String) :
    lookupK ((k0, c0) :: rest) k' = if k0 = k' then some c0 else lookupK rest k' := rfl

theorem lookupK_dictInsertMax (m : List ((String × String × String) × Cand))
    (k : String × String × String) (c : Cand) (k' : String × String × String) :
    lookupK (dictInsertMax m k c) k' =
      if k = k' then
        some (match lookupK m k with
              | none => c
              | some c0 => if c.score > c0.score then c else c0)
      else lookupK m k' := by
  induction m with
  | nil =>
    show lookupK [(k, c)] k' = if k = k' then some c else lookupK [] k'
    rw [lookupK_cons]
  | cons kc rest ih =>
    obtain ⟨k0, c0⟩ := kc
    by_cases h0 : k0 = k
    · subst h0
      by_cases hsc : c.score > c0.score
      · have hd : dictInsertMax ((k0, c0) :: rest) k0 c = (k0, c) :: rest := by
          simp [dictInsertMax, hsc]
        by_cases h' : k0 = k'
        · subst h'
          simp [hd, lookupK_cons, hsc]
        · simp [hd, lookupK_cons, h', hsc]
      · have hd : dictInsertMax ((k0, c0) :: rest) k0 c = (k0, c0) :: rest := by
          simp [dictInsertMax, hsc]
        by_cases h' : k0 = k'
        · subst h'
          simp [hd, lookupK_cons, hsc]
        · simp [hd, lookupK_cons, h', hsc]
    · have hd : dictInsertMax ((k0, c0) :: rest) k c = (k0, c0) :: dictInsertMax rest k c := by
        simp [dictInsertMax, h0]
      have h0' : ¬ k = k0 := fun hh => h0 hh.symm
      by_cases h' : k0 = k'
      · subst h'
        simp [hd, lookupK_cons, h0', h0, ih]
      · simp [hd, lookupK_cons, h', h0', h0, ih]

theorem keys_dictInsertMax (m : List ((String × String × String) × Cand))
    (k : String × String × String) (c : Cand) :
    (dictInsertMax m k c).map Prod.fst =
      if (lookupK m k).isSome then m.map Prod.fst else m.map Prod.fst ++ [k] := by
  induction m with
  | nil => simp [dictInsertMax, lookupK]
  | cons kc rest ih =>
    obtain ⟨k0, c0⟩ := kc
    by_cases h0 : k0 = k
    · subst h0
      by_cases hsc : c.score > c0.score <;>
        simp [dictInsertMax, hsc, lookupK_cons, if_pos rfl]
    · have hd : dictInsertMax ((k0, c0) :: rest) k c = (k0, c0) :: dictInsertMax rest k c := by
        simp [dictInsertMax, h0]
      rw [hd]
      have hm : lookupK ((k0, c0) :: rest) k = lookupK rest k := by
        rw [lookupK_cons, if_neg h0]
      rw [hm]
      by_cases hl : (lookupK rest k).isSome <;> simp [hl, ih]

theorem lookupK_eq_none_iff (m : List ((String × String × String) × Cand))
    (k : String × String × String) :
    lookupK m k = none ↔ k ∉ m.map Prod.fst := by
  induction m with
  | nil => simp [lookupK]
  | cons kc rest ih =>
    obtain ⟨k0, c0⟩ := kc
    rw [lookupK_cons]
    by_cases h0 : k0 = k
    · subst h0
      simp
    · simp only [if_neg h0, ih, List.map_cons, List.mem_cons]
      constructor
      · intro h
        rintro (h1 | h1)
        · exact h0 h1.symm
        · exact h h1
      · intro h h1
        exact h (Or.inr h1)

theorem mem_dictInsertMax (m : List ((String × String × String) × Cand))
    (k : String × String × String) (c : Cand)
    (kc : (String × String × String) × Cand) (h : kc ∈ dictInsertMax m k c) :
    kc ∈ m ∨ kc = (k, c) := by
  induction m with
  | nil => simpa [dictInsertMax] using h
  | cons kc0 rest ih =>
    obtain ⟨k0, c0⟩ := kc0
    by_cases h0 : k0 = k
    · subst h0
      by_cases hsc : c.score > c0.score
      · rw [show dictInsertMax ((k0, c0) :: rest) k0 c = (k0, c) :: rest from by
          simp [dictInsertMax, hsc]] at h
        rcases List.mem_cons.mp h with h1 | h1
        · exact Or.inr (by simp [h1])
        · exact Or.inl (List.mem_cons_of_mem _ h1)
      · rw [show dictInsertMax ((k0, c0) :: rest) k0 c = (k0, c0) :: rest from by
          simp [dictInsertMax, hsc]] at h
        exact Or.inl h
    · rw [show dictInsertMax ((k0, c0) :: rest) k c = (k0, c0) :: dictInsertMax rest k c from by
        simp [dictInsertMax, h0]] at h
      rcases List.mem_cons.mp h with h1 | h1
      · exact Or.inl (by simp [h1])
      · rcases ih h1 with hh | hh
        · exact Or.inl (List.mem_cons_of_mem _ hh)
        · exact Or.inr hh

/-- The dedup invariant of `extract_entities`: keys are unique, every stored
candidate sits under its own key, is one of the candidates that reached the
map, and carries the maximum score among all of them with that key; and every
candidate that reached the map still has an entry under its key. -/
def edInv (best : List ((String × String × String) × Cand)) (produced : List Cand) : Prop :=
  (best.map Prod.fst).Nodup ∧
  (∀ k c, lookupK best k = some c → keyOf c = k ∧ c ∈ produced ∧
    ∀ c' ∈ produced, keyOf c' = k → c'.score ≤ c.score) ∧
  (∀ c' ∈ produced, (lookupK best (keyOf c')).isSome = true)

theorem edInv_nil : edInv [] [] := by
  refine ⟨by simp, ?_, by simp⟩
  intro k c h
  simp [lookupK] at h

theorem edInv_insert (best : List ((String × String × String) × Cand))
    (produced : List Cand) (c : Cand) (h : edInv best produced) :
    edInv (dictInsertMax best (keyOf c) c) (produced ++ [c]) := by
  obtain ⟨hnd, hmax, hcompl⟩ := h
  refine ⟨?_, ?_, ?_⟩
  · rw [keys_dictInsertMax]
    by_cases hl : (lookupK best (keyOf c)).isSome
    · simpa [hl] using hnd
    · rw [if_neg hl]
      rw [List.nodup_append]
      refine ⟨hnd, List.nodup_singleton _, ?_⟩
      intro a ha hb
      have hb' : a = keyOf c := by simpa using hb
      subst hb'
      have : lookupK best (keyOf c) = none := by
        cases hlk : lookupK best (keyOf c) with
        | none => rfl
        | some x => rw [hlk] at hl; simp at hl
      exact (lookupK_eq_none_iff best (keyOf c)).mp this ha
  · intro k d hd
    rw [lookupK_dictInsertMax] at hd
    by_cases hk : keyOf c = k
    · rw [if_pos hk] at hd
      cases hlk : lookupK best (keyOf c) with
      | none =>
        rw [hlk] at hd
        have hdc : d = c := by
          simpa using hd.symm
        subst hdc
        refine ⟨hk, by simp, ?_⟩
        intro c' hc' hkc'
        rcases List.mem_append.mp hc' with hin | hin
        · exfalso
          have := hcompl c' hin
          rw [hkc', ← hk, hlk] at this
          simp at this
        · have : c' = d := by simpa using hin
          subst this
          exact le_refl _
      | some c0 =>
        rw [hlk] at hd
        obtain ⟨hk0, hc0mem, hc0max⟩ := hmax (keyOf c) c0 hlk
        dsimp only at hd
        by_cases hsc : c.score > c0.score
        · rw [if_pos hsc] at hd
          have hdc : d = c := by simpa using hd.symm
          subst hdc
          refine ⟨hk, by simp, ?_⟩
          intro c' hc' hkc'
          rcases List.mem_append.mp hc' with hin | hin
          · exact le_of_lt (lt_of_le_of_lt (hc0max c' hin (by rw [hkc', hk])) hsc)
          · have : c' = d := by simpa using hin
            subst this
            exact le_refl _
        · rw [if_neg hsc] at hd
          have hdc : d = c0 := by simpa using hd.symm
          subst hdc
          refine ⟨by rw [hk0, hk], by simp [hc0mem], ?_⟩
          intro c' hc' hkc'
          rcases List.mem_append.mp hc' with hin | hin
          · exact hc0max c' hin (by rw [hkc', hk])
          · have : c' = c := by simpa using hin
            subst this
            exact le_of_not_lt hsc
    · rw [if_neg hk] at hd
      obtain ⟨hkd, hdmem, hdmax⟩ := hmax k d hd
      refine ⟨hkd, by simp [hdmem], ?_⟩
      intro c' hc' hkc'
      rcases List.mem_append.mp hc' with hin | hin
      · exact hdmax c' hin hkc'
      · exfalso
        have : c' = c := by simpa using hin
        subst this
        exact hk hkc'
  · intro c' hc'
    rw [lookupK_dictInsertMax]
    rcases List.mem_append.mp hc' with hin | hin
    · by_cases hk : keyOf c = keyOf c'
      · rw [if_pos hk]
        simp
      · rw [if_neg hk]
        exact hcompl c' hin
    · have : c' = c := by simpa using hin
      subst this
      rw [if_pos rfl]
      simp

/-! ## Score bounds and loop preservation -/

theorem clamp01_bounds (q : ℚ) : 0 ≤ clamp01 q ∧ clamp01 q ≤ 1 := by
  unfold clamp01 pyMax pyMin
  split_ifs <;> constructor <;> linarith

theorem scoreCandidate_bounds (w : ExtractWorld) (c : Cand) (kws : List String) :
    0 ≤ scoreCandidate w c kws ∧ scoreCandidate w c kws ≤ 1 :=
  clamp01_bounds _

theorem round3aux_bounds (q : ℚ) (h0 : 0 ≤ q) (h1 : q ≤ 1000) :
    0 ≤ round3aux q ∧ round3aux q ≤ 1000 := by
  have hf0 : (0:ℤ) ≤ ⌊q⌋ := Int.floor_nonneg.mpr h0
  have hf1 : ⌊q⌋ ≤ 1000 := by
    have := Int.floor_le_floor (α := ℚ) h1
    simpa using this
  constructor
  · unfold round3aux
    split_ifs <;> omega
  · unfold round3aux
    rcases lt_or_eq_of_le hf1 with hlt | heq
    · split_ifs <;> omega
    · have hq : q = 1000 := by
        have h2 : (⌊q⌋ : ℚ) ≤ q := Int.floor_le q
        rw [heq] at h2
        refine le_antisymm h1 ?_
        exact_mod_cast h2
      subst hq
      have hfl : ⌊(1000:ℚ)⌋ = 1000 := by norm_num
      rw [hfl]
      norm_num

theorem round3_bounds (q : ℚ) (h0 : 0 ≤ q) (h1 : q ≤ 1) :
    0 ≤ round3 q ∧ round3 q ≤ 1 := by
  obtain ⟨ha, hb⟩ := round3aux_bounds (1000 * q) (by linarith) (by linarith)
  unfold round3
  constructor
  · positivity
  · rw [div_le_one (by norm_num)]
    exact_mod_cast hb

theorem mem_insertDescByScore (c x : Cand) :
    ∀ l, x ∈ insertDescByScore c l → x = c ∨ x ∈ l := by
  intro l
  induction l with
  | nil => intro h; simpa [insertDescByScore] using h
  | cons d t ih =>
    intro h
    by_cases hs : c.score > d.score
    · simp only [insertDescByScore, if_pos hs] at h
      rcases List.mem_cons.mp h with h1 | h1
      · exact Or.inl h1
      · exact Or.inr h1
    · simp only [insertDescByScore, if_neg hs] at h
      rcases List.mem_cons.mp h with h1 | h1
      · exact Or.inr (by simp [h1])
      · rcases ih h1 with h2 | h2
        · exact Or.inl h2
        · exact Or.inr (List.mem_cons_of_mem _ h2)

theorem mem_sortByScoreDesc (x : Cand) (l : List Cand) (h : x ∈ sortByScoreDesc l) : x ∈ l := by
  suffices haux : ∀ (ll acc : List Cand),
      x ∈ List.foldl (fun acc c => insertDescByScore c acc) acc ll → x ∈ acc ∨ x ∈ ll by
    rcases haux l [] (by simpa [sortByScoreDesc] using h) with h1 | h1
    · simp at h1
    · exact h1
  intro l
  induction l with
  | nil => intro acc h; exact Or.inl (by simpa using h)
  | cons c t ih =>
    intro acc h
    rcases ih (insertDescByScore c acc) h with h1 | h1
    · rcases mem_insertDescByScore c x acc h1 with h2 | h2
      · exact Or.inr (by simp [h2])
      · exact Or.inl h2
    · exact Or.inr (List.mem_cons_of_mem _ h1)

theorem mem_materializeEnt (best : List ((String × String × String) × Cand)) (e : Entity)
    (h : e ∈ materializeEnt best) :
    ∃ kc ∈ best, e = candToEntity kc.2 := by
  obtain ⟨c, hc, rfl⟩ := List.mem_map.mp h
  have hc2 := mem_sortByScoreDesc c _ hc
  obtain ⟨kc, hkc, rfl⟩ := List.mem_map.mp hc2
  exact ⟨kc, hkc, rfl⟩

/-- The per-candidate step preserves the dedup invariant. -/
theorem edInv_candStep (w : ExtractWorld) (kw : List String) (c : Cand) (st : EState)
    (h : edInv st.best st.produced) :
    edInv (candStep w kw c st).best (candStep w kw c st).produced := by
  unfold candStep
  by_cases hc : kw ≠ [] ∧ semanticScore w (pyOrS c.title "" ++ " " ++ c.snippet) kw < 0.15
  · simpa [hc] using h
  · simp only [if_neg hc]
    exact edInv_insert st.best st.produced _ h

/-- Candidate scores stored in `best` stay inside `[0, 1]`. -/
def bestBounded (best : List ((String × String × String) × Cand)) : Prop :=
  ∀ kc ∈ best, 0 ≤ kc.2.score ∧ kc.2.score ≤ 1

theorem bestBounded_candStep (w : ExtractWorld) (kw : List String) (c : Cand) (st : EState)
    (h : bestBounded st.best) : bestBounded (candStep w kw c st).best := by
  unfold candStep
  by_cases hc : kw ≠ [] ∧ semanticScore w (pyOrS c.title "" ++ " " ++ c.snippet) kw < 0.15
  · simpa [hc] using h
  · simp only [if_neg hc]
    intro kc hkc
    rcases mem_dictInsertMax _ _ _ kc hkc with h1 | h1
    · exact h kc h1
    · subst h1
      exact scoreCandidate_bounds w c kw

theorem edInv_foldCands (w : ExtractWorld) (kw : List String) :
    ∀ cands st, edInv st.best st.produced →
      edInv (foldCands w kw cands st).best (foldCands w kw cands st).produced := by
  intro cands
  induction cands with
  | nil => intro st h; simpa [foldCands] using h
  | cons c rest ih =>
    intro st h
    rw [foldCands]
    exact ih _ (edInv_candStep w kw c st h)

theorem bestBounded_foldCands (w : ExtractWorld) (kw : List String) :
    ∀ cands st, bestBounded st.best → bestBounded (foldCands w kw cands st).best := by
  intro cands
  induction cands with
  | nil => intro st h; simpa [foldCands] using h
  | cons c rest ih =>
    intro st h
    rw [foldCands]
    exact ih _ (bestBounded_candStep w kw c st h)

theorem edInv_stepLine (w : ExtractWorld) (kw : List String) (line : String) (st : EState)
    (h : edInv st.best st.produced) :
    edInv (stepLine w kw line st).best (stepLine w kw line st).produced := by
  unfold stepLine
  by_cases h1 : pyStrip line = ""
  · simpa [h1] using h
  · cases hp : w.parse (pyStrip line) with
    | none => simpa [h1, hp] using h
    | some p =>
      by_cases h2 : pyOrS p.text "" = ""
      · simp only [h1, hp, h2]
        simp only [if_neg h1, ite_true, eq_self_iff_true]
        split_ifs <;> exact h
      · simp only [h1, hp, h2]
        simp only [if_neg h1, if_neg h2, ite_false]
        split_ifs <;> exact edInv_foldCands w kw _ _ h

theorem bestBounded_stepLine (w : ExtractWorld) (kw : List String) (line : String) (st : EState)
    (h : bestBounded st.best) : bestBounded (stepLine w kw line st).best := by
  unfold stepLine
  by_cases h1 : pyStrip line = ""
  · simpa [h1] using h
  · cases hp : w.parse (pyStrip line) with
    | none => simpa [h1, hp] using h
    | some p =>
      by_cases h2 : pyOrS p.text "" = ""
      · simp only [h1, hp, h2]
        simp only [if_neg h1, ite_true, eq_self_iff_true]
        split_ifs <;> exact h
      · simp only [h1, hp, h2]
        simp only [if_neg h1, if_neg h2, ite_false]
        split_ifs <;> exact bestBounded_foldCands w kw _ _ h

theorem stepLine_file_inv (w : ExtractWorld) (kw : List String) (line : String) (st : EState)
    (h : st.fileContent = materializeEnt st.best) :
    (stepLine w kw line st).fileContent = materializeEnt (stepLine w kw line st).best := by
  unfold stepLine
  by_cases h1 : pyStrip line = ""
  · simpa [h1] using h
  · cases hp : w.parse (pyStrip line) with
    | none => simpa [h1, hp] using h
    | some p =>
      by_cases h2 : pyOrS p.text "" = ""
      · simp only [h1, hp, h2]
        simp only [if_neg h1, ite_true, eq_self_iff_true]
        split_ifs <;> exact h
      · simp [h1, hp, h2]

theorem edInv_exLoop (w : ExtractWorld) (kw : List String) (cancel : Nat → Bool) :
    ∀ (lines : List String) (i : Nat) (st : EState), edInv st.best st.produced →
      edInv (exLoop w kw cancel lines i st).best (exLoop w kw cancel lines i st).produced := by
  intro lines
  induction lines with
  | nil => intro i st h; simpa [exLoop] using h
  | cons line rest ih =>
    intro i st h
    by_cases hc : cancel i
    · simpa [exLoop, hc] using h
    · simp only [exLoop, hc, if_false, Bool.false_eq_true]
      exact ih (i + 1) _ (edInv_stepLine w kw line st h)

theorem bestBounded_exLoop (w : ExtractWorld) (kw : List String) (cancel : Nat → Bool) :
    ∀ (lines : List String) (i : Nat) (st : EState), bestBounded st.best →
      bestBounded (exLoop w kw cancel lines i st).best := by
  intro lines
  induction lines with
  | nil => intro i st h; simpa [exLoop] using h
  | cons line rest ih =>
    intro i st h
    by_cases hc : cancel i
    · simpa [exLoop, hc] using h
    · simp only [exLoop, hc, if_false, Bool.false_eq_true]
      exact ih (i + 1) _ (bestBounded_stepLine w kw line st h)

theorem exStates_file_inv (w : ExtractWorld) (kw : List String) (cancel : Nat → Bool) :
    ∀ (lines : List String) (i : Nat) (st : EState),
      st.fileContent = materializeEnt st.best →
      ∀ s ∈ exStates w kw cancel lines i st, s.fileContent = materializeEnt s.best := by
  intro lines
  induction lines with
  | nil => intro i st _ s hs; simp [exStates] at hs
  | cons line rest ih =>
    intro i st h s hs
    by_cases hc : cancel i
    · simp [exStates, hc] at hs
    · simp only [exStates, hc, if_false, Bool.false_eq_true] at hs
      rcases List.mem_cons.mp hs with h1 | h1
      · subst h1
        exact stepLine_file_inv w kw line st h
      · exact ih (i + 1) _ (stepLine_file_inv w kw line st h) s h1

/-! ## Claims about the extraction pipeline -/

/-- A cancel oracle that never fires (`cancel_path` absent or never created). -/
def noCancel : Nat → Bool := fun _ => false

/-- A cancel oracle that fires at every poll. -/
def yesCancel : Nat → Bool := fun _ => true

/-- A 300-character page text for concrete extraction runs. -/
def txtE : String := ⟨List.replicate 300 'b'⟩

/-- One PERSON span at the start of `txtE`. -/
def entE : SpacyEnt := ⟨"PERSON", ⟨List.replicate 10 'b'⟩, 0, 10⟩

/-- A concrete extraction world: the single line `"pg"` parses to a page at
`http://e.com/x` whose text carries one PERSON span; every regex search
misses; the semantic backend scores 0. -/
def wEDemo : ExtractWorld :=
  { parse := fun s => if s = "pg" then some ⟨some "http://e.com/x", some txtE⟩ else none
    ents := fun t => if t = txtE then [entE] else []
    jobTitleSearch := fun _ => none
    titleNearFinds := fun _ => []
    orgHintSearch := fun _ => none
    phoneSearch := fun _ => none
    addressSearch := fun _ => none
    yearSearch := fun _ => none
    semScore := fun _ _ => 0 }

/-- The candidate `wEDemo` produces from `txtE` (window `[0, 270)`). -/
def candE : Cand :=
  { name := ⟨List.replicate 10 'b'⟩
    title := none
    org := none
    context_url := "http://e.com/x"
    snippet := ⟨List.replicate 270 'b'⟩
    phone := none
    address := none
    passing_year := none
    has_title := 0
    has_org := 0
    richness := pyMin 1 ((pyLen (pyWindow txtE 0 10 260) : ℚ) / 450)
    score := 0 }

/-- `candE` with its `_score` set, as stored in the dedup map. -/
def candEScored : Cand := { candE with score := scoreCandidate wEDemo candE [] }

/-- The dedup key of `candE`. -/
def keyE : String × String × String := (pyLower candE.name, pyLower "", "http://e.com/x")

/-- C2: after any extraction run, the dedup map has pairwise-distinct
`(name.lower(), title.lower(), url)` keys; each surviving candidate sits
under its own key, reached the map, and carries the maximum score among all
candidates that reached the map with that key (on collision the
higher-scoring candidate was retained); and the emitted entity list is
exactly the materialisation of that map. -/
theorem C2_dedup_keeps_max (w : ExtractWorld) (lines : List String)
    (keywords : List String) (cancel : Nat → Bool) :
    ((extractRun w lines keywords cancel).best.map Prod.fst).Nodup ∧
    (∀ k c, lookupK (extractRun w lines keywords cancel).best k = some c →
      keyOf c = k ∧ c ∈ (extractRun w lines keywords cancel).produced ∧
      ∀ c' ∈ (extractRun w lines keywords cancel).produced,
        keyOf c' = k → c'.score ≤ c.score) ∧
    (extractRun w lines keywords cancel).entities =
      materializeEnt (extractRun w lines keywords cancel).best := by
  have h := edInv_exLoop w (keywordsList keywords) cancel lines 0
    { best := [], pages_scanned := 0, first_page_url := "", fileContent := [], produced := [] }
    edInv_nil
  exact ⟨h.1, h.2.1, rfl⟩

/-- Witness for C2 on the one-page demo run. -/
theorem C2_dedup_keeps_max_witness :
    keyOf candEScored = keyE ∧
    candEScored ∈ (extractRun wEDemo ["pg"] [] noCancel).produced ∧
    ∀ c' ∈ (extractRun wEDemo ["pg"] [] noCancel).produced,
      keyOf c' = keyE → c'.score ≤ candEScored.score :=
  (C2_dedup_keeps_max wEDemo ["pg"] [] noCancel).2.1 keyE candEScored rfl

/-- C9: during streaming extraction the entities file always holds the
materialisation of the current dedup map — after every processed line (each
state in the ghost trace) and at the end, where the returned entity list
equals the persisted one; and when the cancel marker exists at a poll, the
loop stops before processing the next page, keeping the state (and hence all
already-collected entities) intact. -/
theorem C9_streaming_persist_cancel (w : ExtractWorld) (lines : List String)
    (keywords : List String) (cancel : Nat → Bool) :
    (∀ s ∈ (extractRun w lines keywords cancel).states,
      s.fileContent = materializeEnt s.best) ∧
    ((extractRun w lines keywords cancel).fileContent =
        materializeEnt (extractRun w lines keywords cancel).best ∧
      (extractRun w lines keywords cancel).entities =
        materializeEnt (extractRun w lines keywords cancel).best) ∧
    (∀ (kw : List String) (cancel2 : Nat → Bool) (i : Nat) (line : String)
        (rest : List String) (st : EState), cancel2 i = true →
      exLoop w kw cancel2 (line :: rest) i st = st) := by
  refine ⟨?_, ⟨rfl, rfl⟩, ?_⟩
  · exact exStates_file_inv w (keywordsList keywords) cancel lines 0
      { best := [], pages_scanned := 0, first_page_url := "", fileContent := [], produced := [] }
      rfl
  · intro kw cancel2 i line rest st hc
    simp [exLoop, hc]

/-- The state after the single demo page. -/
def stE : EState :=
  { best := [(keyOf candEScored, candEScored)]
    pages_scanned := 1
    first_page_url := "http://e.com/x"
    fileContent := materializeEnt [(keyOf candEScored, candEScored)]
    produced := [candEScored] }

/-- Witness for C9: the traced state of the demo run persists the
materialised map, and a firing cancel marker stops the loop. -/
theorem C9_streaming_persist_cancel_witness :
    stE.fileContent = materializeEnt stE.best ∧
    exLoop wEDemo [] yesCancel ["pg"] 0 stE = stE :=
  ⟨(C9_streaming_persist_cancel wEDemo ["pg"] [] noCancel).1 stE
      (show stE ∈ [stE] from List.mem_singleton.mpr rfl),
   (C9_streaming_persist_cancel wEDemo ["pg"] [] noCancel).2.2 [] yesCancel 0 "pg" [] stE rfl⟩

/-! ## Enhancer lemmas -/

theorem pyMax_bounds {a b lo hi : ℚ} (ha0 : lo ≤ a) (ha1 : a ≤ hi) (hb0 : lo ≤ b)
    (hb1 : b ≤ hi) : lo ≤ pyMax a b ∧ pyMax a b ≤ hi := by
  have h := ha0
  unfold pyMax
  split_ifs <;> exact ⟨by linarith, by linarith⟩

theorem enhSim_bounds (w : EnhWorld) (name snip : String) :
    0 ≤ enhSim w name snip ∧ enhSim w name snip ≤ 1 := by
  unfold enhSim
  split_ifs
  · unfold pyMax
    norm_num
  · cases w.sbert name snip with
    | none => norm_num
    | some cosine =>
      obtain ⟨h0, h1⟩ := clamp01_bounds cosine
      exact pyMax_bounds h0 h1 (by norm_num) (by norm_num)

theorem enhKwBonus_bounds (kwords : List String) (snip : String) :
    0 ≤ enhKwBonus kwords snip ∧ enhKwBonus kwords snip ≤ 0.3 := by
  unfold enhKwBonus
  split_ifs
  · unfold pyMin
    have hn : (0:ℚ) ≤ 0.1 *
        (((kwords.filter (fun k => pyIn (pyLower k) (pyLower snip))).length : ℚ)) := by
      positivity
    split_ifs with h <;> constructor <;> linarith
  · norm_num

theorem enrichOne_score_bounds (w : EnhWorld) (pages : List PageJson) (kwords : List String)
    (labels : Option (List String)) (r : RawIn) (h0 : 0 ≤ r.score) (h1 : r.score ≤ 1) :
    0 ≤ (enrichOne w pages kwords labels r).score ∧
      (enrichOne w pages kwords labels r).score ≤ 1 := by
  unfold enrichOne
  dsimp only
  obtain ⟨hs0, hs1⟩ := enhSim_bounds w (pyStrip r.name)
    (w.pickSnippet (if textByUrl pages (if r.url ≠ "" then r.url else
      if r.context_url ≠ "" then r.context_url else "") ≠ "" then
        textByUrl pages (if r.url ≠ "" then r.url else
          if r.context_url ≠ "" then r.context_url else "")
      else if r.snippet ≠ "" then r.snippet else "") (pyStrip r.name) kwords)
  obtain ⟨hb0, hb1⟩ := enhKwBonus_bounds kwords
    (w.pickSnippet (if textByUrl pages (if r.url ≠ "" then r.url else
      if r.context_url ≠ "" then r.context_url else "") ≠ "" then
        textByUrl pages (if r.url ≠ "" then r.url else
          if r.context_url ≠ "" then r.context_url else "")
      else if r.snippet ≠ "" then r.snippet else "") (pyStrip r.name) kwords)
  exact pyMax_bounds h0 h1 (by linarith) (by linarith)

theorem pyMaxByScore_mem (l : List EnhEnt) (x : EnhEnt) (h : pyMaxByScore l = some x) :
    x ∈ l := by
  cases l with
  | nil => simp [pyMaxByScore] at h
  | cons a t =>
    have hx : x = t.foldl (fun b y => if y.score > b.score then y else b) a := by
      simpa [pyMaxByScore] using h.symm
    subst hx
    clear h
    suffices haux : ∀ (t : List EnhEnt) (b : EnhEnt),
        t.foldl (fun b y => if y.score > b.score then y else b) b ∈ b :: t by
      exact haux t a
    intro t
    induction t with
    | nil => intro b; simp
    | cons y t2 ih =>
      intro b
      by_cases hsc : y.score > b.score
      · simp only [List.foldl_cons, if_pos hsc]
        rcases List.mem_cons.mp (ih y) with h1 | h1
        · exact List.mem_cons_of_mem _ (by simp [h1])
        · exact List.mem_cons_of_mem _ (List.mem_cons_of_mem _ h1)
      · simp only [List.foldl_cons, if_neg hsc]
        rcases List.mem_cons.mp (ih b) with h1 | h1
        · exact by simp [h1]
        · exact List.mem_cons_of_mem _ (List.mem_cons_of_mem _ h1)

theorem mem_dedupByEkey (x : EnhEnt) :
    ∀ (l : List EnhEnt) (seen : List (String × String)) (acc : List EnhEnt),
      x ∈ dedupByEkey l seen acc → x ∈ acc ∨ x ∈ l := by
  intro l
  induction l with
  | nil => intro seen acc h; exact Or.inl (by simpa [dedupByEkey] using h)
  | cons r t ih =>
    intro seen acc h
    by_cases hs : seen.contains (ekeyOf r)
    · simp only [dedupByEkey, hs, if_true] at h
      rcases ih _ _ h with h1 | h1
      · exact Or.inl h1
      · exact Or.inr (List.mem_cons_of_mem _ h1)
    · simp only [dedupByEkey, hs, if_false, Bool.false_eq_true] at h
      rcases ih _ _ h with h1 | h1
      · rcases List.mem_append.mp h1 with h2 | h2
        · exact Or.inl h2
        · exact Or.inr (by simp [show x = r from by simpa using h2])
      · exact Or.inr (List.mem_cons_of_mem _ h1)

theorem enhance_entities_mem_enriched (w : EnhWorld) (pages : List PageJson)
    (raw : List RawIn) (keywords : List String) (labels : Option (List String))
    (e : EnhEnt) (h : e ∈ enhance_entities w pages raw keywords labels) :
    ∃ r ∈ raw, e = enrichOne w pages (keywords.filter (fun k => pyStrip k ≠ "")) labels r := by
  unfold enhance_entities at h
  by_cases hr : raw.isEmpty
  · simp [hr] at h
  · simp only [hr, if_false, Bool.false_eq_true] at h
    have hmem : e ∈ raw.map (enrichOne w pages
        (keywords.filter (fun k => pyStrip k ≠ "")) labels) := by
      rcases mem_dedupByEkey e _ _ _ h with h1 | h1
      · simp at h1
      · rcases List.mem_append.mp h1 with h2 | h2
        · -- selected from a cluster
          set enriched := raw.map (enrichOne w pages
            (keywords.filter (fun k => pyStrip k ≠ "")) labels) with henr
          suffices haux : ∀ (gs : List (List Nat)) (acc : List EnhEnt),
              (∀ y ∈ acc, y ∈ enriched) →
              ∀ y ∈ gs.foldl (fun acc g =>
                match pyMaxByScore (g.filterMap (fun i => enriched.get? i)) with
                | some b => acc ++ [b]
                | none => acc) acc, y ∈ enriched by
            exact haux _ [] (by simp) e h2
          intro gs
          induction gs with
          | nil => intro acc hacc y hy; exact hacc y (by simpa using hy)
          | cons g gt ih =>
            intro acc hacc y hy
            simp only [List.foldl_cons] at hy
            cases hmx : pyMaxByScore (g.filterMap (fun i => enriched.get? i)) with
            | none =>
              rw [hmx] at hy
              exact ih acc hacc y hy
            | some b =>
              rw [hmx] at hy
              refine ih _ ?_ y hy
              intro z hz
              rcases List.mem_append.mp hz with h3 | h3
              · exact hacc z h3
              · have hzb : z = b := by simpa using h3
                subst hzb
                have hbmem := pyMaxByScore_mem _ _ hmx
                obtain ⟨i, -, hget⟩ := List.mem_filterMap.mp hbmem
                exact List.get?_mem hget
        · -- non-clustered leftovers
          obtain ⟨i, -, hget⟩ := List.mem_filterMap.mp h2
          exact List.get?_mem hget
    obtain ⟨r, hrmem, hre⟩ := List.mem_map.mp hmem
    exact ⟨r, hrmem, hre.symm⟩

theorem dedupByEkey_pairwise :
    ∀ (l : List EnhEnt) (seen : List (String × String)) (acc : List EnhEnt),
      acc.Pairwise (fun a b => ekeyOf a ≠ ekeyOf b) →
      (∀ a ∈ acc, ekeyOf a ∈ seen) →
      (dedupByEkey l seen acc).Pairwise (fun a b => ekeyOf a ≠ ekeyOf b) := by
  intro l
  induction l with
  | nil => intro seen acc h1 _; simpa [dedupByEkey] using h1
  | cons r t ih =>
    intro seen acc h1 h2
    by_cases hs : seen.contains (ekeyOf r)
    · simp only [dedupByEkey, hs, if_true]
      exact ih _ _ h1 h2
    · simp only [dedupByEkey, hs, if_false, Bool.false_eq_true]
      have hsnot : ekeyOf r ∉ seen := by
        intro hmem
        exact hs (List.elem_eq_true_of_mem hmem)
      refine ih _ _ ?_ ?_
      · rw [List.pairwise_append]
        refine ⟨h1, List.pairwise_singleton _ _, ?_⟩
        intro a ha b hb
        have hb' : b = r := by simpa using hb
        subst hb'
        intro heq
        exact hsnot (heq ▸ h2 a ha)
      · intro a ha
        rcases List.mem_append.mp ha with h3 | h3
        · exact List.mem_append.mpr (Or.inl (h2 a h3))
        · have : a = r := by simpa using h3
          subst this
          exact List.mem_append.mpr (Or.inr (by simp))

/-- C3: scores are clamped into `[0, 1]` at every stage — the base scorer,
the (rounded) entity lists emitted by `extract_entities`, and the enhancer
blend `max(base_score, 0.7*similarity + keyword_bonus)`, which never exceeds
1 because the similarity is clamped to `[0, 1]` and the bonus to `[0, 0.3]`. -/
theorem C3_scores_clamped :
    (∀ (w : ExtractWorld) (c : Cand) (kws : List String),
      0 ≤ scoreCandidate w c kws ∧ scoreCandidate w c kws ≤ 1) ∧
    (∀ (w : ExtractWorld) (lines keywords : List String) (cancel : Nat → Bool),
      ∀ e ∈ (extractRun w lines keywords cancel).entities, 0 ≤ e.score ∧ e.score ≤ 1) ∧
    (∀ (we : EnhWorld) (pages : List PageJson) (raw : List RawIn)
        (keywords : List String) (labels : Option (List String)),
      (∀ r ∈ raw, 0 ≤ r.score ∧ r.score ≤ 1) →
      ∀ e ∈ enhance_entities we pages raw keywords labels, 0 ≤ e.score ∧ e.score ≤ 1) := by
  refine ⟨scoreCandidate_bounds, ?_, ?_⟩
  · intro w lines keywords cancel e he
    have hb := bestBounded_exLoop w (keywordsList keywords) cancel lines 0
      { best := [], pages_scanned := 0, first_page_url := "", fileContent := [], produced := [] }
      (by intro kc hkc; simp at hkc)
    obtain ⟨kc, hkc, rfl⟩ := mem_materializeEnt _ _ he
    obtain ⟨h0, h1⟩ := hb kc hkc
    exact round3_bounds _ h0 h1
  · intro we pages raw keywords labels hraw e he
    obtain ⟨r, hr, rfl⟩ := enhance_entities_mem_enriched we pages raw keywords labels e he
    exact enrichOne_score_bounds we pages _ labels r (hraw r hr).1 (hraw r hr).2

/-- A concrete enhancer world: the classifier and clusterer are unavailable,
the SBERT cosine is 1/2, and the snippet picker returns a fixed sentence. -/
def wEnhDemo : EnhWorld :=
  { sbert := fun _ _ => some (1/2)
    zsl := fun _ _ => none
    skAvail := false
    clusterGroups := fun _ => []
    pickSnippet := fun _ _ _ => "a fixed sentence" }

/-- A concrete raw candidate for the enhancer. -/
def rawE : RawIn :=
  { name := "Bob", url := "http://e.com/x", context_url := "", snippet := "s", score := 1/2 }

/-- Witness for C3 at concrete inputs. -/
theorem C3_scores_clamped_witness :
    (0 ≤ scoreCandidate wEDemo candE [] ∧ scoreCandidate wEDemo candE [] ≤ 1) ∧
    (0 ≤ (candToEntity candEScored).score ∧ (candToEntity candEScored).score ≤ 1) ∧
    (∀ e ∈ enhance_entities wEnhDemo [] [rawE] [] none, 0 ≤ e.score ∧ e.score ≤ 1) :=
  ⟨C3_scores_clamped.1 wEDemo candE [],
   C3_scores_clamped.2.1 wEDemo ["pg"] [] noCancel (candToEntity candEScored)
     (show candToEntity candEScored ∈ [candToEntity candEScored] from
       List.mem_singleton.mpr rfl),
   C3_scores_clamped.2.2 wEnhDemo [] [rawE] [] none
     (by
       intro r hr
       have hre : r = rawE := by simpa using hr
       subst hre
       norm_num [rawE])⟩

/-- C10: the Semantic Enhancer's output is unique by the pair
`(name.strip().lower(), url.strip().lower())` alone — no title in the key —
so two entries agreeing on name and URL can never both survive, a stricter
merge than the three-part dedup key of the base pipeline. -/
theorem C10_enhancer_name_url_unique (w : EnhWorld) (pages : List PageJson)
    (raw : List RawIn) (keywords : List String) (labels : Option (List String)) :
    (enhance_entities w pages raw keywords labels).Pairwise
      (fun a b => ekeyOf a ≠ ekeyOf b) := by
  unfold enhance_entities
  by_cases hr : raw.isEmpty
  · simp [hr]
  · simp only [hr, if_false, Bool.false_eq_true]
    exact dedupByEkey_pairwise _ [] [] (by simp) (by simp)

/-! ## C4: the richness term of the scorer -/

/-- A 450-character page text. -/
def txt450 : String := ⟨List.replicate 450 'a'⟩

/-- One PERSON span in the middle of `txt450`, whose ±260 window is the whole
450-character text. -/
def entC4 : SpacyEnt := ⟨"PERSON", ⟨List.replicate 10 'a'⟩, 200, 210⟩

/-- The URL of the C4 demo page (no team/people/... segment). -/
def urlC4 : String := "http://e.com/x"

/-- The extraction world for the C4 demo. -/
def wC4 : ExtractWorld :=
  { parse := fun _ => none
    ents := fun t => if t = txt450 then [entC4] else []
    jobTitleSearch := fun _ => none
    titleNearFinds := fun _ => []
    orgHintSearch := fun _ => none
    phoneSearch := fun _ => none
    addressSearch := fun _ => none
    yearSearch := fun _ => none
    semScore := fun _ _ => 0 }

/-- The candidate generated from `txt450`: a 450-character context window but
a 360-character snippet. -/
def candC4 : Cand :=
  { name := ⟨List.replicate 10 'a'⟩
    title := none
    org := none
    context_url := urlC4
    snippet := ⟨List.replicate 360 'a'⟩
    phone := none
    address := none
    passing_year := none
    has_title := 0
    has_org := 0
    richness := pyMin 1 ((pyLen (pyWindow txt450 200 210 260) : ℚ) / 450)
    score := 0 }

theorem extractCandidates_wC4_eq : extractCandidates wC4 txt450 urlC4 = [candC4] := rfl

theorem pyLen_pyTakeN_le (n : Nat) (s : String) : pyLen (pyTakeN n s) ≤ n := by
  simp [pyLen, pyTakeN]

/-- C4 counterexample: on a concrete page the code scores the candidate
`0.35` (richness `min(1, 450/450) = 1` from the 450-character context
window), while the claimed formula with
`snippet_richness = min(1, len(snippet)/450) = 0.8` (the snippet is the
stripped window truncated to 360 characters) yields `0.28`. -/
theorem C4_richness_counterexample :
    extractCandidates wC4 txt450 urlC4 = [candC4] ∧
    scoreCandidate wC4 candC4 [] = 7/20 ∧
    specScoreClaim wC4 candC4 [] = 7/25 ∧
    scoreCandidate wC4 candC4 [] ≠ specScoreClaim wC4 candC4 [] := by
  have hs : scoreCandidate wC4 candC4 [] =
      clamp01 (0.45 * (0:ℚ) + 0.20 * 0 +
        0.35 * (pyMin 1 ((pyLen (pyWindow txt450 200 210 260) : ℚ) / 450) + 0)) := rfl
  have hlen : pyLen (pyWindow txt450 200 210 260) = 450 := rfl
  have hspec : specScoreClaim wC4 candC4 [] =
      0.45 * (0:ℚ) + 0.20 * 0 +
        0.35 * (pyMin 1 ((pyLen (pyTakeN 360 (pyStrip (pyWindow txt450 200 210 260))) : ℚ)
          / 450) + 0) := rfl
  have hlen2 : pyLen (pyTakeN 360 (pyStrip (pyWindow txt450 200 210 260))) = 360 := rfl
  have h1 : scoreCandidate wC4 candC4 [] = 7/20 := by
    rw [hs, hlen]
    norm_num [clamp01, pyMin, pyMax]
  have h2 : specScoreClaim wC4 candC4 [] = 7/25 := by
    rw [hspec, hlen2]
    norm_num [pyMin]
  refine ⟨extractCandidates_wC4_eq, h1, h2, ?_⟩
  rw [h1, h2]
  norm_num

/-- C4 (amended): the scorer computes the claimed weighted compositions, but
(i) the result is clamped into `[0, 1]`, and (ii) the richness term is
`min(1, len(ctx)/450)` where `ctx` is the ±260-character context window
around the entity — not the emitted snippet, which is the stripped window
truncated to 360 characters (so `len(snippet) ≤ 360` and the claimed
`min(1, len(snippet)/450)` can disagree). -/
theorem C4_score_amended (w : ExtractWorld) (text url : String) (kws : List String)
    (c : Cand) (hc : c ∈ extractCandidates w text url) :
    scoreCandidate w c kws = clamp01 (if kws ≠ [] then
        0.60 * semanticScore w (pyStrip (pyOrS c.title "" ++ ". " ++ c.snippet)) kws +
          0.20 * c.has_title + 0.10 * c.has_org +
          0.10 * (c.richness + pageTitleBoost c.context_url)
      else 0.45 * c.has_title + 0.20 * c.has_org +
        0.35 * (c.richness + pageTitleBoost c.context_url)) ∧
    ∃ ent ∈ w.ents text, ent.label = "PERSON" ∧
      c.richness =
        pyMin 1 ((pyLen (pyWindow text ent.startChar ent.endChar 260) : ℚ) / 450) ∧
      c.snippet = pyTakeN 360 (pyStrip (pyWindow text ent.startChar ent.endChar 260)) ∧
      pyLen c.snippet ≤ 360 := by
  constructor
  · by_cases hk : kws = []
    · subst hk
      rfl
    · simp [scoreCandidate, hk]
  · obtain ⟨ent, hent, hfe⟩ := List.mem_filterMap.mp hc
    by_cases hl : ent.label = "PERSON"
    · rw [if_pos hl] at hfe
      obtain rfl := Option.some.injEq _ _ |>.mp hfe
      refine ⟨ent, hent, hl, rfl, rfl, pyLen_pyTakeN_le _ _⟩
    · rw [if_neg hl] at hfe
      exact absurd hfe (by simp)

/-- Witness for the amended C4 at the concrete demo candidate. -/
theorem C4_score_amended_witness :
    scoreCandidate wC4 candC4 [] = clamp01 (if ([] : List String) ≠ [] then
        0.60 * semanticScore wC4 (pyStrip (pyOrS candC4.title "" ++ ". " ++ candC4.snippet)) [] +
          0.20 * candC4.has_title + 0.10 * candC4.has_org +
          0.10 * (candC4.richness + pageTitleBoost candC4.context_url)
      else 0.45 * candC4.has_title + 0.20 * candC4.has_org +
        0.35 * (candC4.richness + pageTitleBoost candC4.context_url)) ∧
    ∃ ent ∈ wC4.ents txt450, ent.label = "PERSON" ∧
      candC4.richness =
        pyMin 1 ((pyLen (pyWindow txt450 ent.startChar ent.endChar 260) : ℚ) / 450) ∧
      candC4.snippet = pyTakeN 360 (pyStrip (pyWindow txt450 ent.startChar ent.endChar 260)) ∧
      pyLen candC4.snippet ≤ 360 :=
  C4_score_amended wC4 txt450 urlC4 [] candC4 (by
    rw [extractCandidates_wC4_eq]
    exact List.mem_singleton.mpr rfl)

/-! ## C8: tolerance of malformed persisted data -/

/-- A line that strips non-empty but fails to parse leaves the state
untouched (`except: continue`). -/
theorem stepLine_skip (w : ExtractWorld) (kw : List String) (line : String) (st : EState)
    (h1 : pyStrip line ≠ "") (h2 : w.parse (pyStrip line) = none) :
    stepLine w kw line st = st := by
  unfold stepLine
  simp [h1, h2]

/-- With no cancel marker the loop result does not depend on the poll index. -/
theorem exLoop_noCancel_index (w : ExtractWorld) (kw : List String) :
    ∀ (lines : List String) (i j : Nat) (st : EState),
      exLoop w kw noCancel lines i st = exLoop w kw noCancel lines j st := by
  intro lines
  induction lines with
  | nil => intro i j st; rfl
  | cons line rest ih =>
    intro i j st
    simp only [exLoop, noCancel, if_false, Bool.false_eq_true]
    exact ih (i + 1) (j + 1) _

/-- Removing a non-parsing line from the input leaves the loop state
unchanged. -/
theorem exLoop_remove_bad (w : ExtractWorld) (kw : List String) (bad : String)
    (h1 : pyStrip bad ≠ "") (h2 : w.parse (pyStrip bad) = none) :
    ∀ (pre post : List String) (i : Nat) (st : EState),
      exLoop w kw noCancel (pre ++ bad :: post) i st =
        exLoop w kw noCancel (pre ++ post) i st := by
  intro pre
  induction pre with
  | nil =>
    intro post i st
    simp only [List.nil_append, exLoop, noCancel, if_false, Bool.false_eq_true]
    rw [stepLine_skip w kw bad st h1 h2]
    exact exLoop_noCancel_index w kw post (i + 1) i st
  | cons p pre' ih =>
    intro post i st
    simp only [List.cons_append, exLoop, noCancel, if_false, Bool.false_eq_true]
    exact ih post (i + 1) _

/-- A trivial JSON-line parser for the `read_all` counterexample: only the
line `"bad"` fails to parse. -/
def parseDemo : String → Option String := fun s => if s = "bad" then none else some s

/-- C8 counterexample: (i) a missing pages file makes `extract_entities`
raise out of `open` (no empty result), and (ii) in `JSONLStorage.read_all` a
corrupt line does not merely get skipped — it aborts the loop, so the valid
line after it is lost. -/
theorem C8_counterexample :
    extract_entities wEDemo none [] noCancel = .error () ∧
    read_all (some ["g1", "bad", "g2"]) parseDemo = ["g1"] := by
  constructor
  · rfl
  · decide

/-- C8 (amended): malformed-data tolerance is split between the two readers.
`extract_entities` skips a non-JSON line without affecting any other line
and always succeeds on a present pages file, but raises when the file is
missing; `JSONLStorage.read_all` returns `[]` for a missing file (while a
corrupt line stops its loop, returning only the already-parsed pages, as the
counterexample shows). -/
theorem C8_reader_tolerance_amended :
    (∀ (w : ExtractWorld) (keywords pre post : List String) (bad : String),
      pyStrip bad ≠ "" → w.parse (pyStrip bad) = none →
      (extractRun w (pre ++ bad :: post) keywords noCancel).best =
        (extractRun w (pre ++ post) keywords noCancel).best ∧
      (extractRun w (pre ++ bad :: post) keywords noCancel).pages_scanned =
        (extractRun w (pre ++ post) keywords noCancel).pages_scanned ∧
      (extractRun w (pre ++ bad :: post) keywords noCancel).entities =
        (extractRun w (pre ++ post) keywords noCancel).entities ∧
      (extractRun w (pre ++ bad :: post) keywords noCancel).fileContent =
        (extractRun w (pre ++ post) keywords noCancel).fileContent) ∧
    (∀ (α : Type) (parse : String → Option α), read_all none parse = []) ∧
    (∀ (w : ExtractWorld) (lines keywords : List String) (cancel : Nat → Bool),
      extract_entities w (some lines) keywords cancel =
        .ok (extractRun w lines keywords cancel)) := by
  refine ⟨?_, fun _ _ => rfl, fun _ _ _ _ => rfl⟩
  intro w keywords pre post bad h1 h2
  have hst := exLoop_remove_bad w (keywordsList keywords) bad h1 h2 pre post 0
    { best := [], pages_scanned := 0, first_page_url := "", fileContent := [], produced := [] }
  exact ⟨congrArg EState.best hst, congrArg EState.pages_scanned hst,
    congrArg (fun s : EState => materializeEnt s.best) hst,
    congrArg (fun s : EState => materializeEnt s.best) hst⟩

/-- Witness for the amended C8 on a concrete run containing a corrupt line. -/
theorem C8_reader_tolerance_amended_witness :
    ((extractRun wEDemo ([] ++ "bad" :: ["pg"]) [] noCancel).best =
        (extractRun wEDemo ([] ++ ["pg"]) [] noCancel).best ∧
      (extractRun wEDemo ([] ++ "bad" :: ["pg"]) [] noCancel).pages_scanned =
        (extractRun wEDemo ([] ++ ["pg"]) [] noCancel).pages_scanned ∧
      (extractRun wEDemo ([] ++ "bad" :: ["pg"]) [] noCancel).entities =
        (extractRun wEDemo ([] ++ ["pg"]) [] noCancel).entities ∧
      (extractRun wEDemo ([] ++ "bad" :: ["pg"]) [] noCancel).fileContent =
        (extractRun wEDemo ([] ++ ["pg"]) [] noCancel).fileContent) ∧
    read_all none parseDemo = [] :=
  ⟨C8_reader_tolerance_amended.1 wEDemo [] [] ["pg"] "bad" (by decide) rfl,
   C8_reader_tolerance_amended.2.1 String parseDemo⟩
